import Mathlib

set_option maxRecDepth 100000

/-!
Verification of the dependency normalization / categorization engine of
`distribution/build.py` and the error-recovery path of
`scripts/gen_distro_docs.py`.

The Python code is shallowly embedded: each embedded definition carries a
reference to the source lines it translates.  Strings are modelled as `String`
(worked on through `String.data : List Char`); Python string comparison is
code-point lexicographic, modelled by `lexLe` below; `sorted(set(xs))` is
modelled by `sortedSet`; fallible code returns `Except`.
-/

/-- The apostrophe character (U+0027), used by the quoting step of `build.py`. -/
def squoteChar : Char := Char.ofNat 39

/-- The apostrophe as a one-character string. -/
def squoteStr : String := String.mk [squoteChar]

/-! ### Code-point lexicographic order on strings (Python `sorted` order) -/

/-- Lexicographic less-or-equal on character lists, comparing code points;
this is exactly the order Python uses to compare `str` values. -/
def lexLe : List Char → List Char → Bool
  | [], _ => true
  | _ :: _, [] => false
  | c :: cs, d :: ds => if c < d then true else if d < c then false else lexLe cs ds

/-- Python's `<=` on strings. -/
def strLe (a b : String) : Prop := lexLe a.data b.data = true

instance : DecidableRel strLe := fun _ _ => inferInstanceAs (Decidable (_ = true))

theorem lexLe_total (a b : List Char) : lexLe a b = true ∨ lexLe b a = true := by
  induction a generalizing b with
  | nil => left; rfl
  | cons c cs ih =>
    cases b with
    | nil => right; rfl
    | cons d ds =>
      rcases lt_trichotomy c d with h | h | h
      · left; simp [lexLe, h]
      · subst h
        rcases ih ds with h2 | h2
        · left; simp [lexLe, lt_irrefl, h2]
        · right; simp [lexLe, lt_irrefl, h2]
      · right; simp [lexLe, h]

theorem lexLe_cons {c d : Char} {cs ds : List Char} :
    lexLe (c :: cs) (d :: ds) = true ↔ (c < d ∨ (c = d ∧ lexLe cs ds = true)) := by
  simp only [lexLe]
  rcases lt_trichotomy c d with h | h | h
  · simp [h]
  · subst h; simp [lt_irrefl]
  · have hne : c ≠ d := fun he => absurd (he ▸ h) (lt_irrefl d)
    simp [h, lt_asymm h, hne]

theorem lexLe_trans {a b c : List Char} (h1 : lexLe a b = true)
    (h2 : lexLe b c = true) : lexLe a c = true := by
  induction a generalizing b c with
  | nil => rfl
  | cons x xs ih =>
    cases b with
    | nil => simp [lexLe] at h1
    | cons y ys =>
      cases c with
      | nil => simp [lexLe] at h2
      | cons z zs =>
        rcases lexLe_cons.mp h1 with hxy | ⟨hxy, h1'⟩
        · rcases lexLe_cons.mp h2 with hyz | ⟨hyz, _⟩
          · exact lexLe_cons.mpr (Or.inl (lt_trans hxy hyz))
          · exact lexLe_cons.mpr (Or.inl (hyz ▸ hxy))
        · subst hxy
          rcases lexLe_cons.mp h2 with hyz | ⟨hyz, h2'⟩
          · exact lexLe_cons.mpr (Or.inl hyz)
          · exact lexLe_cons.mpr (Or.inr ⟨hyz, ih h1' h2'⟩)

theorem lexLe_antisymm {a b : List Char} (h1 : lexLe a b = true)
    (h2 : lexLe b a = true) : a = b := by
  induction a generalizing b with
  | nil =>
    cases b with
    | nil => rfl
    | cons d ds => simp [lexLe] at h2
  | cons c cs ih =>
    cases b with
    | nil => simp [lexLe] at h1
    | cons d ds =>
      rcases lexLe_cons.mp h1 with h | ⟨h, h1'⟩
      · rcases lexLe_cons.mp h2 with h' | ⟨h', _⟩
        · exact absurd h' (lt_asymm h)
        · exact absurd (h' ▸ h) (lt_irrefl d)
      · subst h
        rcases lexLe_cons.mp h2 with h' | ⟨_, h2'⟩
        · exact absurd h' (lt_irrefl c)
        · exact congrArg (c :: ·) (ih h1' h2')

instance : IsTotal String strLe :=
  ⟨fun a b => lexLe_total a.data b.data⟩

instance : IsTrans String strLe :=
  ⟨fun _ _ _ h1 h2 => lexLe_trans h1 h2⟩

instance : IsAntisymm String strLe :=
  ⟨fun a b h1 h2 => by
    cases a; cases b
    exact congrArg String.mk (lexLe_antisymm h1 h2)⟩

instance : IsRefl String strLe :=
  ⟨fun a => by
    rcases lexLe_total a.data a.data with h | h <;> exact h⟩

/-- Model of Python `sorted(set(xs))` for a list of strings: deduplicate,
then sort by code-point lexicographic order (`build.py` lines 166 and 197). -/
def sortedSet (l : List String) : List String :=
  List.insertionSort strLe l.dedup

theorem sortedSet_sorted (l : List String) : List.Sorted strLe (sortedSet l) :=
  List.sorted_insertionSort strLe l.dedup

theorem mem_sortedSet {a : String} {l : List String} :
    a ∈ sortedSet l ↔ a ∈ l := by
  unfold sortedSet
  rw [(List.perm_insertionSort strLe l.dedup).mem_iff]
  exact List.mem_dedup

/-- `sorted` alone (no dedup), as applied to the per-category instruction
lists (`build.py` lines 225-228). -/
def sortStr (l : List String) : List String :=
  List.insertionSort strLe l

theorem sortStr_sorted (l : List String) : List.Sorted strLe (sortStr l) :=
  List.sorted_insertionSort strLe l

theorem sortStr_eq_of_perm {l₁ l₂ : List String} (h : l₁.Perm l₂) :
    sortStr l₁ = sortStr l₂ := by
  refine List.eq_of_perm_of_sorted ?_ (sortStr_sorted l₁) (sortStr_sorted l₂)
  exact ((List.perm_insertionSort strLe l₁).trans h).trans
    (List.perm_insertionSort strLe l₂).symm

theorem sortedSet_eq_of_perm {l₁ l₂ : List String} (h : l₁.Perm l₂) :
    sortedSet l₁ = sortedSet l₂ := by
  refine List.eq_of_perm_of_sorted ?_ (sortedSet_sorted l₁) (sortedSet_sorted l₂)
  exact ((List.perm_insertionSort strLe l₁.dedup).trans h.dedup).trans
    (List.perm_insertionSort strLe l₂.dedup).symm

/-! ### Character classes and substring utilities -/

/-- `[a-zA-Z_]` — first character of the identifier group in the
dotted-namespace regex of `build.py` line 191. -/
def isIdentStart (c : Char) : Bool := c.isAlpha || c = '_'

/-- `[a-zA-Z0-9_]` — continuation characters of that identifier group. -/
def isIdentChar (c : Char) : Bool := c.isAlphanum || c = '_'

/-- Boolean list-prefix test (used to model substring search). -/
def isPre : List Char → List Char → Bool
  | [], _ => true
  | _ :: _, [] => false
  | a :: as, b :: bs => a == b && isPre as bs

/-- Python's `pat in s` substring test, on character lists. -/
def containsSub (pat : List Char) : List Char → Bool
  | [] => pat.isEmpty
  | c :: rest => isPre pat (c :: rest) || containsSub pat rest

/-- Fuelled worker for `replaceAll`; fuel at least the list length makes it
total and structurally recursive (so that it evaluates in the kernel). -/
def replaceGo (pat repl : List Char) : Nat → List Char → List Char
  | 0, l => l
  | _ + 1, [] => []
  | f + 1, c :: rest =>
    if isPre pat (c :: rest) then
      repl ++ replaceGo pat repl f (List.drop (pat.length - 1) rest)
    else
      c :: replaceGo pat repl f rest

/-- Python's `s.replace(pat, repl)` for a non-empty `pat`: replace every
non-overlapping occurrence, scanning left to right. -/
def replaceAll (pat repl l : List Char) : List Char := replaceGo pat repl l.length l

/-! ### Python whitespace stripping -/

/-- ASCII characters stripped by Python's `str.strip()` (the resolver output
handled by `build.py` is ASCII; astral whitespace is outside the model). -/
def isPyWs (c : Char) : Bool :=
  c ∈ ([' ', '\t', '\n', '\r', '\x0b', '\x0c',
        Char.ofNat 0x1c, Char.ofNat 0x1d, Char.ofNat 0x1e, Char.ofNat 0x1f,
        Char.ofNat 0x85, Char.ofNat 0xa0] : List Char)

/-- Python `line.strip()` (`build.py` line 134). -/
def pyStripData (l : List Char) : List Char :=
  ((l.dropWhile isPyWs).reverse.dropWhile isPyWs).reverse

/-- Python `s.strip()` on `String`. -/
def pyStrip (s : String) : String := String.mk (pyStripData s.data)

/-- Python `s.rstrip()` (`build.py` line 257, `dependencies.rstrip()`). -/
def pyRstrip (s : String) : String :=
  String.mk (s.data.reverse.dropWhile isPyWs).reverse

/-! ### Model of `shlex.split` (POSIX mode, `whitespace_split=True`)

`build.py` line 144 tokenizes each directive line with `shlex.split`, which
raises `ValueError` ("No closing quotation" / "No escaped character") on
malformed quoting.  The model below follows CPython's `shlex.read_token`
state machine restricted to the configuration `shlex.split` uses:
whitespace `" \t\r\n"`, quotes `'` and `"`, escape `\`, escaped quotes `"`,
`posix=True`, `whitespace_split=True`, no comment characters. -/

inductive SState
  | ws | word | squote | dquote | escWord | escDquote
deriving DecidableEq

/-- The `shlex` whitespace set. -/
def shlexWsChars : List Char := [' ', '\t', '\r', '\n']

/-- One pass of CPython's `shlex.read_token` loop over the whole input,
accumulating complete tokens in `acc`; `tok` is the token being built and
`quoted` records whether the current token entered a quoted state. -/
def shlexRun : List Char → SState → List Char → Bool → List String →
    Except String (List String)
  | [], st, tok, quoted, acc =>
    match st with
    | .squote => .error "No closing quotation"
    | .dquote => .error "No closing quotation"
    | .escWord => .error "No escaped character"
    | .escDquote => .error "No escaped character"
    | _ => if tok.isEmpty && !quoted then .ok acc else .ok (acc ++ [String.mk tok])
  | c :: rest, .ws, tok, quoted, acc =>
    if shlexWsChars.contains c then shlexRun rest .ws [] false acc
    else if c = squoteChar then shlexRun rest .squote tok true acc
    else if c = '"' then shlexRun rest .dquote tok true acc
    else if c = '\\' then shlexRun rest .escWord tok quoted acc
    else shlexRun rest .word (tok ++ [c]) quoted acc
  | c :: rest, .word, tok, quoted, acc =>
    if shlexWsChars.contains c then
      shlexRun rest .ws [] false
        (if tok.isEmpty && !quoted then acc else acc ++ [String.mk tok])
    else if c = squoteChar then shlexRun rest .squote tok true acc
    else if c = '"' then shlexRun rest .dquote tok true acc
    else if c = '\\' then shlexRun rest .escWord tok quoted acc
    else shlexRun rest .word (tok ++ [c]) quoted acc
  | c :: rest, .squote, tok, quoted, acc =>
    if c = squoteChar then shlexRun rest .word tok quoted acc
    else shlexRun rest .squote (tok ++ [c]) quoted acc
  | c :: rest, .dquote, tok, quoted, acc =>
    if c = '"' then shlexRun rest .word tok quoted acc
    else if c = '\\' then shlexRun rest .escDquote tok quoted acc
    else shlexRun rest .dquote (tok ++ [c]) quoted acc
  | c :: rest, .escWord, tok, quoted, acc =>
    shlexRun rest .word (tok ++ [c]) quoted acc
  | c :: rest, .escDquote, tok, quoted, acc =>
    if c = '"' || c = '\\' then shlexRun rest .dquote (tok ++ [c]) quoted acc
    else shlexRun rest .dquote (tok ++ ['\\', c]) quoted acc

/-- Python `shlex.split(s)` (`build.py` line 144). -/
def shlexSplit (s : String) : Except String (List String) :=
  shlexRun s.data .ws [] false []

deriving instance DecidableEq for Except

example : shlexSplit "a bc  d" = .ok ["a", "bc", "d"] := by decide
example : shlexSplit "torch==2.0 --extra-index-url https://x" =
    .ok ["torch==2.0", "--extra-index-url", "https://x"] := by decide
example : shlexSplit (squoteStr ++ "pyarrow>=21.0.0" ++ squoteStr) =
    .ok ["pyarrow>=21.0.0"] := by decide
example : shlexSplit ("foo " ++ squoteStr ++ "bar") = .error "No closing quotation" := by
  decide
example : shlexSplit "foo\\" = .error "No escaped character" := by decide
example : shlexSplit (squoteStr ++ squoteStr) = .ok [""] := by decide
example : shlexSplit "a\"b c\"d" = .ok ["ab cd"] := by decide

/-! ### The dotted-namespace rewrite (`build.py` lines 189-196)

Model of `re.sub(r"\.([a-zA-Z_][a-zA-Z0-9_]*)(==|>=|<=|>|<|~=|!=)", r"[\1]\2", p)`:
scan left to right; at a `.` followed by an identifier (`[a-zA-Z_][a-zA-Z0-9_]*`,
taken greedily — no backtracking can help, because no operator starts with an
identifier character) followed by one of the seven operators (tried in the
regex's alternation order), replace `.ident` by `[ident]` and continue after
the operator. -/

/-- Try the operator alternation `==|>=|<=|>|<|~=|!=` at the head of the list,
returning the matched operator and the remainder. -/
def matchOp (l : List Char) : Option (List Char × List Char) :=
  match l with
  | [] => none
  | c :: rest =>
    if c = '=' then
      match rest with
      | c2 :: r => if c2 = '=' then some (['=', '='], r) else none
      | [] => none
    else if c = '>' then
      match rest with
      | c2 :: r => if c2 = '=' then some (['>', '='], r) else some (['>'], c2 :: r)
      | [] => some (['>'], [])
    else if c = '<' then
      match rest with
      | c2 :: r => if c2 = '=' then some (['<', '='], r) else some (['<'], c2 :: r)
      | [] => some (['<'], [])
    else if c = '~' then
      match rest with
      | c2 :: r => if c2 = '=' then some (['~', '='], r) else none
      | [] => none
    else if c = '!' then
      match rest with
      | c2 :: r => if c2 = '=' then some (['!', '='], r) else none
      | [] => none
    else none

/-- Try the whole regex at the head of the list; on success return
(identifier, operator, remainder after the operator). -/
def tryDot (l : List Char) : Option (List Char × List Char × List Char) :=
  match l with
  | c :: c2 :: rest =>
    if c = '.' then
      if isIdentStart c2 then
        match matchOp (rest.dropWhile isIdentChar) with
        | some (op, r2) => some (c2 :: rest.takeWhile isIdentChar, op, r2)
        | none => none
      else none
    else none
  | _ => none

/-- Whether the regex matches anywhere in the list (`re.search` succeeds). -/
def hasMatch : List Char → Bool
  | [] => false
  | c :: rest => (tryDot (c :: rest)).isSome || hasMatch rest

/-- Fuelled worker for the global substitution (`re.sub` replaces every
non-overlapping match, scanning left to right). -/
def dottedGo : Nat → List Char → List Char
  | 0, l => l
  | _ + 1, [] => []
  | f + 1, c :: rest =>
    match tryDot (c :: rest) with
    | some (id, op, r2) => '[' :: id ++ [']'] ++ op ++ dottedGo f r2
    | none => c :: dottedGo f rest

/-- The global substitution on character lists. -/
def dottedSub (l : List Char) : List Char := dottedGo l.length l

/-- Step 3 of the per-token normalization: the dotted-namespace rewrite. -/
def dottedRewrite (s : String) : String := String.mk (dottedSub s.data)

/-! ### The pymilvus extras patch (`build.py` lines 174-180) -/

/-- Pattern `"pymilvus"`. -/
def pymilvusPat : List Char := "pymilvus".data

/-- Pattern `"[milvus-lite]"`. -/
def milvusLitePat : List Char := "[milvus-lite]".data

/-- Replacement `"pymilvus[milvus-lite]"`. -/
def pymilvusRepl : List Char := "pymilvus[milvus-lite]".data

/-- Step 2 of the per-token normalization:
`package.replace("pymilvus", "pymilvus[milvus-lite]") if "pymilvus" in package
and "[milvus-lite]" not in package else package`. -/
def pymilvusPatch (s : String) : String :=
  if containsSub pymilvusPat s.data && !containsSub milvusLitePat s.data then
    String.mk (replaceAll pymilvusPat pymilvusRepl s.data)
  else s

/-! ### The redirection-quoting step (`build.py` lines 169-172) -/

/-- Step 1 of the per-token normalization:
`f"'{package}'" if (">" in package or "<" in package) else package`. -/
def quoteRedirect (s : String) : String :=
  if s.data.contains '>' || s.data.contains '<' then squoteStr ++ s ++ squoteStr
  else s

/-- The full per-token normalization, in the order the source applies the
three rewrites (quote, pymilvus patch, dotted rewrite). -/
def normalizeToken (s : String) : String :=
  dottedRewrite (pymilvusPatch (quoteRedirect s))

example : dottedRewrite "llama_stack_provider_ragas.extra==0.5.1" =
    "llama_stack_provider_ragas[extra]==0.5.1" := by decide
example : dottedRewrite "foo==1.2.3" = "foo==1.2.3" := by decide
example : dottedRewrite "a.b.c==1" = "a.b[c]==1" := by decide
example : dottedRewrite "x.y>=2" = "x[y]>=2" := by decide
example : pymilvusPatch "pymilvus==2.4.0" = "pymilvus[milvus-lite]==2.4.0" := by decide
example : pymilvusPatch "pymilvus[milvus-lite]==2.4.0" = "pymilvus[milvus-lite]==2.4.0" := by
  decide
example : quoteRedirect "numpy>=1.20" = squoteStr ++ "numpy>=1.20" ++ squoteStr := by decide
example : quoteRedirect "numpy==1.20" = "numpy==1.20" := by decide
example : normalizeToken (normalizeToken "numpy>=1.20") ≠ normalizeToken "numpy>=1.20" := by
  decide

/-! ### Line parsing, categorization and rendering (`build.py` lines 120-236) -/

/-- Wrap a string in single quotes. -/
def sqt (s : String) : String := squoteStr ++ s ++ squoteStr

/-- `PINNED_DEPENDENCIES` (`build.py` lines 25-33): the hand-authored pinned
override list, each entry single-quoted in the source. -/
def PINNED_DEPENDENCIES : List String :=
  [sqt "kfp-kubernetes==2.14.6", sqt "pyarrow>=21.0.0", sqt "botocore==1.35.88",
   sqt "boto3==1.35.88", sqt "aiobotocore==2.16.1", sqt "ibm-cos-sdk-core==2.14.2",
   sqt "ibm-cos-sdk==2.14.2"]

/-- `cmd_parts = ["RUN", "uv", "pip", "install"]` (`build.py` line 139). -/
def cmd_parts : List String := ["RUN", "uv", "pip", "install"]

/-- The four instruction categories of `get_dependencies`:
`standard_deps`, `torch_deps` (extra-index), `no_deps`, `no_cache`. -/
inductive Cat
  | standard | extraIndex | noDeps | noCache
deriving DecidableEq

/-- The token scan of `build.py` lines 149-163: walk the `shlex` tokens,
consuming `--extra-index-url`/`--index-url` together with their following
argument when one exists (recording the last `--extra-index-url` argument),
recording `--no-deps`/`--no-cache` standalone, and collecting every other
token — including an argument-less trailing index flag — as a package.
Returns `(packages, flags, extra_index_url)`. -/
def parseParts : List String → List String × List String × Option String
  | [] => ([], [], none)
  | p :: rest =>
    if p = "--extra-index-url" then
      match rest with
      | [] => ([p], [], none)
      | u :: rest' =>
        let r := parseParts rest'
        (r.1, p :: u :: r.2.1, match r.2.2 with | some v => some v | none => some u)
    else if p = "--index-url" then
      match rest with
      | [] => ([p], [], none)
      | u :: rest' =>
        let r := parseParts rest'
        (r.1, p :: u :: r.2.1, r.2.2)
    else if p = "--no-deps" ∨ p = "--no-cache" then
      let r := parseParts rest
      (r.1, p :: r.2.1, r.2.2)
    else
      let r := parseParts rest
      (p :: r.1, r.2.1, r.2.2)

/-- Python truthiness of the `extra_index_url` variable (`None` and the empty
string are falsy). -/
def pyTruthy : Option String → Bool
  | none => false
  | some s => !s.isEmpty

/-- The category decision of `build.py` lines 200-214:
`if extra_index_url or "--index-url" in flags: ... elif "--no-deps" in flags:
... elif "--no-cache" in flags: ... else: ...`. -/
def categorize (flags : List String) (extra_index_url : Option String) : Cat :=
  if pyTruthy extra_index_url || flags.contains "--index-url" then .extraIndex
  else if flags.contains "--no-deps" then .noDeps
  else if flags.contains "--no-cache" then .noCache
  else .standard

/-- The package-list normalization of `build.py` lines 165-197:
`sorted(set(...))`, quote, pymilvus patch, dotted rewrite, `sorted(set(...))`. -/
def normalizePkgs (pkgs : List String) : List String :=
  sortedSet ((((sortedSet pkgs).map quoteRedirect).map pymilvusPatch).map dottedRewrite)

/-- Standard-category rendering (`build.py` lines 212-213): one package per
continuation line. -/
def renderStandard (pkgs : List String) : String :=
  String.intercalate " " cmd_parts ++ " \\\n    " ++ String.intercalate " \\\n    " pkgs

/-- Non-standard rendering (`build.py` lines 202, 205, 208): one line,
`" ".join(cmd_parts + flags + packages)`. -/
def renderInline (flags pkgs : List String) : String :=
  String.intercalate " " (cmd_parts ++ flags ++ pkgs)

/-- Rendering dispatch on the category. -/
def renderCmd (cat : Cat) (flags pkgs : List String) : String :=
  match cat with
  | .standard => renderStandard pkgs
  | _ => renderInline flags pkgs

/-- Processing of a single raw resolver line (`build.py` lines 133-214):
strip; skip if blank; `shlex.split` (a `ValueError` aborts the run); scan
tokens; normalize packages; categorize; render.  Returns `none` for a blank
line and `(category, rendered instruction)` otherwise. -/
def lineEntry (line : String) : Except String (Option (Cat × String)) :=
  let l := pyStrip line
  if l = "" then .ok none
  else
    match shlexSplit l with
    | .error e => .error e
    | .ok parts =>
      let r := parseParts parts
      let cat := categorize r.2.1 r.2.2
      .ok (some (cat, renderCmd cat r.2.1 (normalizePkgs r.1)))

/-- The accumulation loop of `get_dependencies` (`build.py` lines 128-214):
each rendered instruction is appended to the list of its category, in input
order. -/
def buildLists : List String → List String → List String → List String → List String →
    Except String (List String × List String × List String × List String)
  | [], s, t, nd, nc => .ok (s, t, nd, nc)
  | line :: rest, s, t, nd, nc =>
    match lineEntry line with
    | .error e => .error e
    | .ok none => buildLists rest s t nd nc
    | .ok (some (.standard, c)) => buildLists rest (s ++ [c]) t nd nc
    | .ok (some (.extraIndex, c)) => buildLists rest s (t ++ [c]) nd nc
    | .ok (some (.noDeps, c)) => buildLists rest s t (nd ++ [c]) nc
    | .ok (some (.noCache, c)) => buildLists rest s t nd (nc ++ [c])

/-- The pinned-override instruction (`build.py` lines 221-222). -/
def pinned_cmd : String :=
  "RUN uv pip install --upgrade \\\n    " ++ String.intercalate " \\\n    " PINNED_DEPENDENCIES

/-- `get_dependencies` (`build.py` lines 120-231), as a function of the
resolver's output lines: accumulate the four category lists, then emit the
pinned instruction first (if the pinned list is non-empty) followed by each
category list sorted, joined with newlines. -/
def get_dependencies (lines : List String) : Except String String :=
  match buildLists lines [] [] [] [] with
  | .error e => .error e
  | .ok (s, t, nd, nc) =>
    .ok (String.intercalate "\n"
      ((if PINNED_DEPENDENCIES.isEmpty then [] else [pinned_cmd]) ++
        sortStr s ++ sortStr t ++ sortStr nd ++ sortStr nc))

/-! ### Containerfile generation (`build.py` lines 239-271) -/

/-- The auto-generation warning prepended to the Containerfile. -/
def warningHeader : String :=
  "# WARNING: This file is auto-generated. Do not modify it manually.\n# Generated by: distribution/build.py\n\n"

/-- The `{dependencies}` placeholder. -/
def depPh : List Char := "{dependencies}".data

/-- The `{llama_stack_install_source}` placeholder. -/
def srcPh : List Char := "{llama_stack_install_source}".data

/-- Fuelled single-pass substitution of the two placeholders, modelling
`template_content.format(dependencies=..., llama_stack_install_source=...)`
for templates whose brace fields are exactly those two placeholders. -/
def formatGo (dep src : List Char) : Nat → List Char → List Char
  | 0, l => l
  | _ + 1, [] => []
  | f + 1, c :: rest =>
    if isPre depPh (c :: rest) then
      dep ++ formatGo dep src f (List.drop (depPh.length - 1) rest)
    else if isPre srcPh (c :: rest) then
      src ++ formatGo dep src f (List.drop (srcPh.length - 1) rest)
    else c :: formatGo dep src f rest

/-- `str.format` with the two named substitutions of `build.py` line 256. -/
def formatTemplate (tpl dep src : String) : String :=
  String.mk (formatGo dep.data src.data tpl.data.length tpl.data)

/-- Newline splitting (the generated content uses `\n` terminators only). -/
def splitOnNl : List Char → List (List Char)
  | [] => [[]]
  | c :: rest =>
    let r := splitOnNl rest
    if c = '\n' then [] :: r
    else
      match r with
      | [] => [[c]]
      | h :: t => (c :: h) :: t

/-- `generate_containerfile` (`build.py` lines 239-269): fail when the
template file is absent; otherwise substitute the dependency block (rstripped)
and the optional source-install block (empty when absent), prepend the
warning, and drop every fully-blank line. -/
def generate_containerfile (template : Option String) (dependencies : String)
    (llama_stack_install : Option String) : Except String String :=
  match template with
  | none => .error "Template file not found"
  | some tpl =>
    let content :=
      warningHeader ++ formatTemplate tpl (pyRstrip dependencies) (llama_stack_install.getD "")
    .ok (String.intercalate "\n"
        (((splitOnNl content.data).map String.mk).filter (fun ln => pyStrip ln != "")) ++ "\n")

/-- The recipe-generation path of `main` (`build.py` lines 285-292): obtain
the dependency block, then generate the Containerfile.  A parse failure in
`get_dependencies` aborts the whole run before any output is produced. -/
def buildMain (lines : List String) (template : Option String)
    (llama_stack_install : Option String) : Except String String :=
  match get_dependencies lines with
  | .error e => .error e
  | .ok deps => generate_containerfile template deps llama_stack_install

example : get_dependencies [] = .ok pinned_cmd := by decide
example : get_dependencies ["--no-deps"] =
    .ok (pinned_cmd ++ "\n" ++ "RUN uv pip install --no-deps") := by decide
example : lineEntry "foo==1 bar==2" =
    .ok (some (.standard, "RUN uv pip install \\\n    bar==2 \\\n    foo==1")) := by decide
example : lineEntry "  " = .ok none := by decide
example : lineEntry "torch==2.0 --extra-index-url https://x" =
    .ok (some (.extraIndex, "RUN uv pip install --extra-index-url https://x torch==2.0")) := by
  decide
example : lineEntry "foo==1 foo==1 --no-deps" =
    .ok (some (.noDeps, "RUN uv pip install --no-deps foo==1")) := by decide

/-! ### Doc generator: version extraction (`scripts/gen_distro_docs.py`)

The `git ls-remote` subprocess outcome is passed in as an `Except`: an
`.error` value stands for `CalledProcessError`, `TimeoutExpired` (the call
uses `timeout=10`) or any other exception caught by the `except` clause;
an `.ok` value carries the command's stdout. -/

/-- `resolve_main_commit_hash` (`gen_distro_docs.py` lines 12-33): on any
subprocess failure or timeout print a warning and return `None`; otherwise
take the first whitespace-delimited field of the first line of stdout, or
`None` when that line is empty. -/
def resolve_main_commit_hash (gitResult : Except String String) : Option String :=
  match gitResult with
  | .error _ => none
  | .ok out =>
    match (splitOnNl (pyStrip out).data).map String.mk with
    | [] => none
    | h :: _ =>
      if h = "" then none
      else some (String.mk (h.data.takeWhile (fun c => !isPyWs c)))

/-- Literal `git+https://github.com/` opening the two git-URL regexes. -/
def gitUrlPat : List Char := "git+https://github.com/".data

/-- Try `git\+https://github\.com/([^/]+)/llama-stack\.git@main` at the head
of the list; return the captured repository owner. -/
def mainPinAt (l : List Char) : Option String :=
  if isPre gitUrlPat l then
    let after := l.drop gitUrlPat.length
    let owner := after.takeWhile (fun c => c != '/')
    if owner.isEmpty then none
    else if isPre "/llama-stack.git@main".data (after.dropWhile (fun c => c != '/')) then
      some (String.mk owner)
    else none
  else none

/-- `re.search` with the main-branch pattern: leftmost match. -/
def findMainPin : List Char → Option String
  | [] => none
  | c :: rest =>
    match mainPinAt (c :: rest) with
    | some o => some o
    | none => findMainPin rest

/-- Greedy run of ASCII digits. -/
def takeDigits (l : List Char) : List Char × List Char :=
  (l.takeWhile Char.isDigit, l.dropWhile Char.isDigit)

/-- Optional `(?:rc[0-9]+)?` group. -/
def matchRc (l : List Char) : List Char × List Char :=
  match l with
  | 'r' :: 'c' :: rest =>
    let p := takeDigits rest
    if p.1.isEmpty then ([], l) else ('r' :: 'c' :: p.1, p.2)
  | _ => ([], l)

/-- Optional `(?:\+rhai[0-9]+)?` group. -/
def matchRhai (l : List Char) : List Char × List Char :=
  match l with
  | '+' :: 'r' :: 'h' :: 'a' :: 'i' :: rest =>
    let p := takeDigits rest
    if p.1.isEmpty then ([], l) else ('+' :: 'r' :: 'h' :: 'a' :: 'i' :: p.1, p.2)
  | _ => ([], l)

/-- The version group
`[0-9]+\.[0-9]+\.[0-9]+(?:rc[0-9]+)?(?:\+rhai[0-9]+)?` at the head of the
list; returns (matched version, remainder). -/
def matchVersion (l : List Char) : Option (List Char × List Char) :=
  let p1 := takeDigits l
  if p1.1.isEmpty then none else
  match p1.2 with
  | '.' :: r2 =>
    let p2 := takeDigits r2
    if p2.1.isEmpty then none else
    match p2.2 with
    | '.' :: r4 =>
      let p3 := takeDigits r4
      if p3.1.isEmpty then none else
      let rc := matchRc p3.2
      let rh := matchRhai rc.2
      some (p1.1 ++ ['.'] ++ p2.1 ++ ['.'] ++ p3.1 ++ rc.1 ++ rh.1, rh.2)
    | _ => none
  | _ => none

/-- Try `llama-stack==(version)` at the head of the list. -/
def versionPinAt (l : List Char) : Option String :=
  if isPre "llama-stack==".data l then
    match matchVersion (l.drop "llama-stack==".length) with
    | some p => some (String.mk p.1)
    | none => none
  else none

/-- `re.search` with the `llama-stack==` pattern: leftmost match. -/
def findVersionPin : List Char → Option String
  | [] => none
  | c :: rest =>
    match versionPinAt (c :: rest) with
    | some v => some v
    | none => findVersionPin rest

/-- Try `git\+https://github\.com/([^/]+)/llama-stack\.git@v?(version)` at
the head of the list; return (owner, version). -/
def gitPinAt (l : List Char) : Option (String × String) :=
  if isPre gitUrlPat l then
    let after := l.drop gitUrlPat.length
    let owner := after.takeWhile (fun c => c != '/')
    if owner.isEmpty then none
    else
      let rest := after.dropWhile (fun c => c != '/')
      if isPre "/llama-stack.git@".data rest then
        let r2 := rest.drop "/llama-stack.git@".length
        let r3 := match r2 with | 'v' :: t => t | _ => r2
        match matchVersion r3 with
        | some p => some (String.mk owner, String.mk p.1)
        | none => none
      else none
  else none

/-- `re.search` with the tagged-git pattern: leftmost match. -/
def findGitPin : List Char → Option (String × String)
  | [] => none
  | c :: rest =>
    match gitPinAt (c :: rest) with
    | some p => some p
    | none => findGitPin rest

/-- `extract_llama_stack_version` (`gen_distro_docs.py` lines 36-86) as a
function of the Containerfile text and the `git ls-remote` outcome: the
main-branch pin is tried first, falling back to the literal `"main"` when the
commit lookup recovers `None`; then the `llama-stack==` pin; then the tagged
git pin; otherwise the run aborts (`exit(1)`). -/
def extract_llama_stack_version (content : String) (gitResult : Except String String) :
    Except String (String × String) :=
  match findMainPin content.data with
  | some owner =>
    match resolve_main_commit_hash gitResult with
    | some h => .ok (h, owner)
    | none => .ok ("main", owner)
  | none =>
    match findVersionPin content.data with
    | some v => .ok (v, "opendatahub-io")
    | none =>
      match findGitPin content.data with
      | some p => .ok (p.2, p.1)
      | none => .error "Could not find llama-stack version in Containerfile"

example : findMainPin
    "RUN uv pip install git+https://github.com/opendatahub-io/llama-stack.git@main".data =
    some "opendatahub-io" := by decide
example : findMainPin "RUN uv pip install llama-stack==0.4.0".data = none := by decide
example : findVersionPin "xx llama-stack==1.2.3rc4+rhai7 yy".data = some "1.2.3rc4+rhai7" := by
  decide
example : resolve_main_commit_hash (.ok "abc123\trefs/heads/main\n") = some "abc123" := by
  decide
example : resolve_main_commit_hash (.error "timeout") = none := by decide
example : extract_llama_stack_version
    "git+https://github.com/opendatahub-io/llama-stack.git@main" (.error "timeout") =
    .ok ("main", "opendatahub-io") := by decide

/-! ### Theory of the dotted-namespace rewrite -/

theorem matchOp_shape {l op r2 : List Char} (h : matchOp l = some (op, r2)) :
    l = op ++ r2 ∧
    (op = ['=', '='] ∨ op = ['>', '='] ∨ op = ['<', '='] ∨ op = ['>'] ∨
     op = ['<'] ∨ op = ['~', '='] ∨ op = ['!', '=']) := by
  match l with
  | [] => simp [matchOp] at h
  | c :: rest =>
    cases rest with
    | nil =>
      simp only [matchOp] at h
      split_ifs at h with h1 h2 h3 h4 h5 <;> cases h <;> subst_vars <;>
        exact ⟨rfl, by simp⟩
    | cons c2 r =>
      simp only [matchOp] at h
      split_ifs at h with h1 h2 h3 h4 h5 h6 h7 h8 h9 <;> cases h <;> subst_vars <;>
        exact ⟨rfl, by simp⟩

theorem matchOp_none_head {c : Char} (h1 : c ≠ '=') (h2 : c ≠ '>') (h3 : c ≠ '<')
    (h4 : c ≠ '~') (h5 : c ≠ '!') (r : List Char) : matchOp (c :: r) = none := by
  simp [matchOp, h1, h2, h3, h4, h5]

theorem identStart_identChar {c : Char} (h : isIdentStart c = true) :
    isIdentChar c = true := by
  simp only [isIdentStart, Bool.or_eq_true] at h
  rcases h with h | h <;> simp [isIdentChar, Char.isAlphanum, h]

theorem tryDot_none_head {c : Char} (hc : c ≠ '.') (rest : List Char) :
    tryDot (c :: rest) = none := by
  cases rest with
  | nil => rfl
  | cons c2 r => simp [tryDot, hc]

theorem tryDot_spec {l id op r2 : List Char} (h : tryDot l = some (id, op, r2)) :
    l = '.' :: (id ++ op ++ r2) ∧ id ≠ [] ∧ (∀ x ∈ id, isIdentChar x = true) ∧
    isIdentStart (id.headD ' ') = true ∧ matchOp (op ++ r2) = some (op, r2) := by
  match l with
  | [] => simp [tryDot] at h
  | [c] => simp [tryDot] at h
  | c :: c2 :: rest =>
    simp only [tryDot] at h
    split_ifs at h with h1 h2
    · split at h
      · rename_i op' r2' heq
        cases h
        have hs := matchOp_shape heq
        subst h1
        have hsplit : rest.takeWhile isIdentChar ++ (op ++ r2) = rest := by
          rw [← hs.1]
          exact List.takeWhile_append_dropWhile isIdentChar rest
        refine ⟨?_, by simp, ?_, by simpa using h2, ?_⟩
        · have : ((c2 :: rest.takeWhile isIdentChar) ++ op) ++ r2 = c2 :: rest := by
            simp only [List.cons_append, List.append_assoc]
            rw [hsplit]
          exact congrArg ('.' :: ·) this.symm
        · intro x hx
          rcases List.mem_cons.mp hx with rfl | hx
          · exact identStart_identChar h2
          · exact List.mem_takeWhile_imp hx
        · rw [← hs.1]
          exact heq
      · cases h

theorem tryDot_length {l id op r2 : List Char} (h : tryDot l = some (id, op, r2)) :
    r2.length < l.length := by
  obtain ⟨hl, hid, -, -, -⟩ := tryDot_spec h
  have : 0 < id.length := List.length_pos.mpr hid
  rw [hl]
  simp only [List.length_cons, List.length_append]
  omega

/-- Reasoning twin of `dottedSub`, defined by well-founded recursion on the
list length (no fuel); proved equal to `dottedSub` below. -/
def dottedSubW : List Char → List Char
  | [] => []
  | c :: rest =>
    match h : tryDot (c :: rest) with
    | some (id, op, r2) => '[' :: id ++ [']'] ++ op ++ dottedSubW r2
    | none => c :: dottedSubW rest
termination_by l => l.length
decreasing_by
  · exact tryDot_length h
  · simp

theorem dottedSubW_nil : dottedSubW [] = [] := by rw [dottedSubW]

theorem dottedSubW_some {c : Char} {rest id op r2 : List Char}
    (h : tryDot (c :: rest) = some (id, op, r2)) :
    dottedSubW (c :: rest) = '[' :: id ++ [']'] ++ op ++ dottedSubW r2 := by
  rw [dottedSubW]
  split
  · rename_i id' op' r2' h2
    rw [h] at h2
    cases h2
    rfl
  · rename_i h2
    rw [h] at h2
    cases h2

theorem dottedSubW_none {c : Char} {rest : List Char} (h : tryDot (c :: rest) = none) :
    dottedSubW (c :: rest) = c :: dottedSubW rest := by
  rw [dottedSubW]
  split
  · rename_i id' op' r2' h2
    rw [h] at h2
    cases h2
  · rfl

theorem dottedGo_eq_subW : ∀ (f : Nat) (l : List Char), l.length ≤ f →
    dottedGo f l = dottedSubW l := by
  intro f
  induction f with
  | zero =>
    intro l hl
    have : l = [] := List.eq_nil_of_length_eq_zero (Nat.le_zero.mp hl)
    subst this
    rw [dottedSubW_nil]
    rfl
  | succ f ih =>
    intro l hl
    cases l with
    | nil => rw [dottedSubW_nil]; rfl
    | cons c rest =>
      simp only [dottedGo]
      cases h : tryDot (c :: rest) with
      | some p =>
        obtain ⟨id, op, r2⟩ := p
        have hlt := tryDot_length h
        simp only [List.length_cons] at hlt hl
        rw [dottedSubW_some h]
        simp only [ih r2 (by omega)]
      | none =>
        rw [dottedSubW_none h]
        simp only [List.length_cons] at hl
        simp only [ih rest (by omega)]

theorem dottedSub_eq_subW (l : List Char) : dottedSub l = dottedSubW l :=
  dottedGo_eq_subW l.length l le_rfl

theorem dottedRewrite_eq (s : String) : dottedRewrite s = String.mk (dottedSubW s.data) :=
  congrArg String.mk (dottedSub_eq_subW s.data)

theorem dottedSubW_of_noMatch : ∀ {l : List Char}, hasMatch l = false → dottedSubW l = l := by
  intro l
  induction l with
  | nil => intro _; exact dottedSubW_nil
  | cons c rest ih =>
    intro h
    simp only [hasMatch, Bool.or_eq_false_iff] at h
    have h1 : tryDot (c :: rest) = none := by
      cases h2 : tryDot (c :: rest)
      · rfl
      · rw [h2] at h; simp at h
    rw [dottedSubW_none h1, ih h.2]

theorem dottedSubW_append_nodot {A : List Char} (hA : ∀ a ∈ A, a ≠ '.') (B : List Char) :
    dottedSubW (A ++ B) = A ++ dottedSubW B := by
  induction A with
  | nil => simp
  | cons a A' ih =>
    have hnone : tryDot (a :: (A' ++ B)) = none := tryDot_none_head (hA a (by simp)) _
    simp only [List.cons_append]
    rw [dottedSubW_none hnone, ih (fun x hx => hA x (by simp [hx]))]

theorem hasMatch_append_nodot {A : List Char} (hA : ∀ a ∈ A, a ≠ '.') (B : List Char) :
    hasMatch (A ++ B) = hasMatch B := by
  induction A with
  | nil => rfl
  | cons a A' ih =>
    simp only [List.cons_append, hasMatch]
    rw [tryDot_none_head (hA a (by simp)) _]
    simp [ih (fun x hx => hA x (by simp [hx]))]

theorem matchOp_pair {b : Char} (hb : b = '=' ∨ b = '~' ∨ b = '!') (z : List Char) :
    matchOp (b :: z) =
      (match z with
       | e :: t => if e = '=' then some ([b, '='], t) else none
       | [] => none) := by
  rcases hb with rfl | rfl | rfl <;> cases z <;> simp [matchOp]

theorem matchOp_single {b : Char} (hb : b = '>' ∨ b = '<') (z : List Char) :
    (matchOp (b :: z)).isSome = true := by
  rcases hb with rfl | rfl <;>
    (cases z with
     | nil => simp [matchOp]
     | cons e t => by_cases he : e = '=' <;> simp [matchOp, he])

theorem takeWhileAppend {p : Char → Bool} {A : List Char} (hA : A.all p = true)
    (B : List Char) : (A ++ B).takeWhile p = A ++ B.takeWhile p := by
  induction A with
  | nil => rfl
  | cons a A' ih =>
    simp only [List.all_cons, Bool.and_eq_true] at hA
    simp [List.takeWhile_cons, hA.1, ih hA.2]

theorem dropWhileAppend {p : Char → Bool} {A : List Char} (hA : A.all p = true)
    (B : List Char) : (A ++ B).dropWhile p = B.dropWhile p := by
  induction A with
  | nil => rfl
  | cons a A' ih =>
    simp only [List.all_cons, Bool.and_eq_true] at hA
    simp [List.dropWhile_cons, hA.1, ih hA.2]

theorem dropWhile_head_false {p : Char → Bool} {l : List Char} {b : Char} {B : List Char}
    (h : l.dropWhile p = b :: B) : p b = false := by
  induction l with
  | nil => cases h
  | cons x xs ih =>
    rw [List.dropWhile_cons] at h
    split_ifs at h with hx
    · exact ih h
    · cases h
      simpa using hx

theorem takeWhile_all {p : Char → Bool} (l : List Char) : (l.takeWhile p).all p = true := by
  induction l with
  | nil => rfl
  | cons x xs ih =>
    rw [List.takeWhile_cons]
    split_ifs with hx
    · simp [hx, ih]
    · rfl

/-- A failed match at the head of `l` still fails when a list beginning with a
dot is appended: the appended dot can never complete the operator the match
was missing. -/
theorem tryDot_append_dot {l : List Char} (h : tryDot l = none) (hl : l ≠ [])
    (ys : List Char) : tryDot (l ++ '.' :: ys) = none := by
  match l with
  | [] => exact absurd rfl hl
  | [x] =>
    by_cases hx : x = '.'
    · subst hx
      have : isIdentStart '.' = false := by decide
      simp [tryDot, this]
    · exact tryDot_none_head hx _
  | x :: x2 :: xs =>
    by_cases hx : x = '.'
    case neg => exact tryDot_none_head hx _
    case pos =>
      subst hx
      by_cases h2 : isIdentStart x2
      case neg => simp [tryDot, h2]
      case pos =>
        have hmo : matchOp (xs.dropWhile isIdentChar) = none := by
          simp only [tryDot, if_pos rfl, if_pos h2] at h
          cases hm : matchOp (xs.dropWhile isIdentChar) with
          | none => rfl
          | some p =>
            rw [hm] at h
            obtain ⟨op, r2⟩ := p
            simp at h
        have key : matchOp ((xs ++ '.' :: ys).dropWhile isIdentChar) = none := by
          have hsplit : xs = xs.takeWhile isIdentChar ++ xs.dropWhile isIdentChar :=
            (List.takeWhile_append_dropWhile isIdentChar xs).symm
          rw [show xs ++ '.' :: ys =
                xs.takeWhile isIdentChar ++ (xs.dropWhile isIdentChar ++ '.' :: ys) by
              rw [← List.append_assoc, ← hsplit],
            dropWhileAppend (takeWhile_all xs)]
          cases hB : xs.dropWhile isIdentChar with
          | nil =>
            have hdot : isIdentChar '.' = false := by decide
            simp [List.dropWhile_cons, hdot, matchOp]
          | cons b B' =>
            rw [hB] at hmo
            have hbni : isIdentChar b = false := dropWhile_head_false hB
            have hskip : ((b :: B') ++ '.' :: ys).dropWhile isIdentChar =
                b :: (B' ++ '.' :: ys) := by
              simp [List.dropWhile_cons, hbni]
            rw [hskip]
            by_cases hb1 : b = '=' ∨ b = '~' ∨ b = '!'
            · rw [matchOp_pair hb1] at hmo ⊢
              cases B' with
              | nil =>
                have hde : ('.' : Char) ≠ '=' := by decide
                simp [hde]
              | cons e t =>
                by_cases he : e = '='
                · simp [he] at hmo
                · simp only [List.cons_append]
                  simp [he]
            · by_cases hb2 : b = '>' ∨ b = '<'
              · exfalso
                have hs := matchOp_single hb2 B'
                rw [hmo] at hs
                simp at hs
              · push_neg at hb1 hb2
                exact matchOp_none_head hb1.1 hb2.1 hb2.2 hb1.2.1 hb1.2.2 _
        simp only [List.cons_append]
        simp [tryDot, h2, key]

theorem hasMatch_false_cons {c : Char} {rest : List Char}
    (h : hasMatch (c :: rest) = false) :
    tryDot (c :: rest) = none ∧ hasMatch rest = false := by
  simp only [hasMatch, Bool.or_eq_false_iff] at h
  refine ⟨?_, h.2⟩
  cases h2 : tryDot (c :: rest)
  · rfl
  · rw [h2] at h
    simp at h

/-- The left-to-right scan copies a match-free prefix unchanged when the
remainder starts with a dot. -/
theorem dottedSubW_append_noMatch {xs : List Char} (hx : hasMatch xs = false)
    (ys : List Char) : dottedSubW (xs ++ '.' :: ys) = xs ++ dottedSubW ('.' :: ys) := by
  induction xs with
  | nil => rfl
  | cons x xt ih =>
    obtain ⟨hnone, htail⟩ := hasMatch_false_cons hx
    have happ := tryDot_append_dot hnone (by simp) ys
    simp only [List.cons_append] at happ ⊢
    rw [dottedSubW_none happ, ih htail]

/-- The regex matches at a separator dot followed by a valid identifier and
an operator. -/
theorem tryDot_sep {c : Char} {cs op v : List Char} (hc : isIdentStart c = true)
    (hcs : cs.all isIdentChar = true) (hop : matchOp (op ++ v) = some (op, v)) :
    tryDot ('.' :: c :: (cs ++ (op ++ v))) = some (c :: cs, op, v) := by
  have hhead : ∃ o os, op = o :: os ∧ isIdentChar o = false := by
    rcases (matchOp_shape hop).2 with h | h | h | h | h | h | h <;> subst h <;>
      exact ⟨_, _, rfl, by decide⟩
  obtain ⟨o, os, hopeq, ho⟩ := hhead
  have hdrop : (cs ++ (op ++ v)).dropWhile isIdentChar = op ++ v := by
    rw [dropWhileAppend hcs, hopeq]
    simp [List.dropWhile_cons, ho]
  have htake : (cs ++ (op ++ v)).takeWhile isIdentChar = cs := by
    rw [takeWhileAppend hcs, hopeq]
    simp [List.takeWhile_cons, ho]
  simp [tryDot, hc, hdrop, htake, hop]

theorem string_eq_of_data {a b : String} (h : a.data = b.data) : a = b := by
  cases a
  cases b
  exact congrArg String.mk h

/-- C7: the dotted-namespace rewrite turns a token of the shape
`<name>.<suffix><op><version>` — where `<op>` is one of the seven comparison
operators (the hypothesis `hop` says exactly that `<op>` followed by
`<version>` parses as that operator), `<suffix>` is a valid identifier
immediately followed by the operator, and neither `<name>` nor `<version>`
contains a further regex match — into `<name>[<suffix>]<op><version>`, and
leaves every token the regex does not match anywhere unchanged
(`build.py` lines 189-196). -/
theorem dotted_namespace_rewrite (name ver : String) (c : Char) (cs op : List Char)
    (hc : isIdentStart c = true) (hcs : cs.all isIdentChar = true)
    (hname : hasMatch name.data = false)
    (hop : matchOp (op ++ ver.data) = some (op, ver.data))
    (hver : hasMatch ver.data = false) :
    dottedRewrite (name ++ String.mk ('.' :: c :: cs) ++ String.mk op ++ ver) =
      name ++ String.mk ('[' :: c :: cs ++ ']' :: op) ++ ver ∧
    ∀ u : String, hasMatch u.data = false → dottedRewrite u = u := by
  constructor
  · rw [dottedRewrite_eq]
    apply string_eq_of_data
    have hdata : (name ++ String.mk ('.' :: c :: cs) ++ String.mk op ++ ver).data =
        name.data ++ ('.' :: c :: (cs ++ (op ++ ver.data))) := by
      simp [String.data_append, List.append_assoc]
    rw [show (String.mk (dottedSubW
          (name ++ String.mk ('.' :: c :: cs) ++ String.mk op ++ ver).data)).data =
        dottedSubW (name ++ String.mk ('.' :: c :: cs) ++ String.mk op ++ ver).data
        from rfl, hdata, dottedSubW_append_noMatch hname,
      dottedSubW_some (tryDot_sep hc hcs hop), dottedSubW_of_noMatch hver]
    simp [String.data_append, List.append_assoc]
  · intro u hu
    rw [dottedRewrite_eq, dottedSubW_of_noMatch hu]

theorem dotted_namespace_rewrite_witness :
    dottedRewrite "llama_stack_provider_ragas.extra==0.5.1" =
      "llama_stack_provider_ragas[extra]==0.5.1" ∧
    dottedRewrite "foo==1.2.3" = "foo==1.2.3" := by
  constructor
  · have h := (dotted_namespace_rewrite "llama_stack_provider_ragas" "0.5.1" 'e'
      ['x', 't', 'r', 'a'] ['=', '='] (by decide) (by decide) (by decide) (by decide)
      (by decide)).1
    have e1 : "llama_stack_provider_ragas" ++ String.mk ('.' :: 'e' :: ['x', 't', 'r', 'a']) ++
        String.mk ['=', '='] ++ "0.5.1" = "llama_stack_provider_ragas.extra==0.5.1" := by
      decide
    have e2 : "llama_stack_provider_ragas" ++
        String.mk ('[' :: 'e' :: ['x', 't', 'r', 'a'] ++ ']' :: ['=', '=']) ++ "0.5.1" =
        "llama_stack_provider_ragas[extra]==0.5.1" := by decide
    rw [e1, e2] at h
    exact h
  · exact (dotted_namespace_rewrite "llama_stack_provider_ragas" "0.5.1" 'e'
      ['x', 't', 'r', 'a'] ['=', '='] (by decide) (by decide) (by decide) (by decide)
      (by decide)).2 "foo==1.2.3" (by decide)

/-! ### Claim C4: categorization precedence -/

/-- C4 (amended): exactly one of the four categories is selected, with the
precedence ExtraIndex > NoDeps > NoCache > Standard, where the ExtraIndex
test is Python-truthiness of the last recorded `--extra-index-url` argument
(an empty-string argument does not count), or the presence of the literal
token `--index-url` in the flag list (`build.py` lines 200-214). -/
theorem categorize_exclusive (flags : List String) (eiu : Option String) :
    (categorize flags eiu = .extraIndex ↔
      (pyTruthy eiu || flags.contains "--index-url") = true) ∧
    (categorize flags eiu = .noDeps ↔
      (!(pyTruthy eiu || flags.contains "--index-url") &&
        flags.contains "--no-deps") = true) ∧
    (categorize flags eiu = .noCache ↔
      (!(pyTruthy eiu || flags.contains "--index-url") && !flags.contains "--no-deps" &&
        flags.contains "--no-cache") = true) ∧
    (categorize flags eiu = .standard ↔
      (!(pyTruthy eiu || flags.contains "--index-url") && !flags.contains "--no-deps" &&
        !flags.contains "--no-cache") = true) := by
  unfold categorize
  cases h1 : (pyTruthy eiu || flags.contains "--index-url") <;>
    cases h2 : flags.contains "--no-deps" <;>
      cases h3 : flags.contains "--no-cache" <;>
        simp [h1, h2, h3]

/-- C4 as stated is false on the code: the line
`--extra-index-url '' --no-deps foo==1` yields a flag list containing
`--extra-index-url`, yet the directive is categorized NoDeps, because the
recorded (empty) URL argument is falsy in Python. -/
theorem categorize_counterexample :
    lineEntry ("--extra-index-url " ++ squoteStr ++ squoteStr ++ " --no-deps foo==1") =
      .ok (some (.noDeps, "RUN uv pip install --extra-index-url  --no-deps foo==1")) ∧
    (parseParts ["--extra-index-url", "", "--no-deps", "foo==1"]).2.1.contains
      "--extra-index-url" = true ∧
    categorize (parseParts ["--extra-index-url", "", "--no-deps", "foo==1"]).2.1
      (parseParts ["--extra-index-url", "", "--no-deps", "foo==1"]).2.2 ≠ .extraIndex := by
  refine ⟨by decide, by decide, by decide⟩

/-! ### Claim C9: non-fatal metadata lookup -/

/-- C9: when the Containerfile pins llama-stack to the main branch, a failed
or timed-out `git ls-remote` (any `.error` outcome, which is how the model
renders `CalledProcessError`, `TimeoutExpired` after the 10-second limit, or
any other caught exception) is recovered: the lookup returns `none` and the
generator falls back to the identifier `"main"` instead of propagating the
error (`gen_distro_docs.py` lines 12-33 and 52-64). -/
theorem lookup_failure_recovers (content : String) (owner e : String)
    (h : findMainPin content.data = some owner) :
    resolve_main_commit_hash (.error e) = none ∧
    extract_llama_stack_version content (.error e) = .ok ("main", owner) := by
  refine ⟨rfl, ?_⟩
  unfold extract_llama_stack_version
  rw [h]
  rfl

theorem lookup_failure_recovers_witness :
    findMainPin "git+https://github.com/opendatahub-io/llama-stack.git@main".data =
      some "opendatahub-io" ∧
    extract_llama_stack_version "git+https://github.com/opendatahub-io/llama-stack.git@main"
      (.error "TimeoutExpired") = .ok ("main", "opendatahub-io") :=
  ⟨by decide,
   (lookup_failure_recovers "git+https://github.com/opendatahub-io/llama-stack.git@main"
      "opendatahub-io" "TimeoutExpired" (by decide)).2⟩

/-! ### Claim C8: malformed quoting aborts the run -/

theorem lineEntry_error_of_malformed {line e : String} (hne : pyStrip line ≠ "")
    (he : shlexSplit (pyStrip line) = .error e) : lineEntry line = .error e := by
  unfold lineEntry
  simp only [hne, if_false, he]

theorem buildLists_isOk_false {lines : List String} {line e : String}
    (hmem : line ∈ lines) (herr : lineEntry line = .error e) :
    ∀ s t nd nc, (buildLists lines s t nd nc).isOk = false := by
  induction lines with
  | nil => cases hmem
  | cons l rest ih =>
    intro s t nd nc
    cases hl : lineEntry l with
    | error e' => simp [buildLists, hl, Except.isOk, Except.toBool]
    | ok v =>
      have hnel : line ≠ l := fun hq => by
        rw [hq, hl] at herr
        cases herr
      have hmem' : line ∈ rest := by
        rcases List.mem_cons.mp hmem with h | h
        · exact absurd h hnel
        · exact h
      rcases v with _ | ⟨cat, cmd⟩
      · simp only [buildLists, hl]
        exact ih hmem' s t nd nc
      · cases cat <;> (simp only [buildLists, hl]; exact ih hmem' _ _ _ _)

theorem get_dependencies_isOk_false {lines : List String} {line e : String}
    (hmem : line ∈ lines) (hne : pyStrip line ≠ "")
    (he : shlexSplit (pyStrip line) = .error e) :
    (get_dependencies lines).isOk = false := by
  have h2 := buildLists_isOk_false hmem (lineEntry_error_of_malformed hne he) [] [] [] []
  unfold get_dependencies
  cases hb : buildLists lines [] [] [] [] with
  | error e' => simp [Except.isOk, Except.toBool]
  | ok q =>
    rw [hb] at h2
    simp [Except.isOk, Except.toBool] at h2

/-- C8: if any non-blank resolver line has malformed shell quoting
(`shlex.split` raises), the whole run fails — `get_dependencies` never
returns a dependency block, so `generate_containerfile` is never reached and
no recipe file is written; the uncaught exception terminates the process
with a non-zero status (`build.py` lines 143-144, 285-292). -/
theorem malformed_line_aborts (lines : List String) (template llsi : Option String)
    (line e : String) (hmem : line ∈ lines) (hne : pyStrip line ≠ "")
    (he : shlexSplit (pyStrip line) = .error e) :
    (buildMain lines template llsi).isOk = false ∧
    (get_dependencies lines).isOk = false := by
  have hg := get_dependencies_isOk_false hmem hne he
  refine ⟨?_, hg⟩
  unfold buildMain
  cases hb : get_dependencies lines with
  | error e' => simp [hb, Except.isOk, Except.toBool]
  | ok d =>
    rw [hb] at hg
    simp [Except.isOk, Except.toBool] at hg

theorem malformed_line_aborts_witness :
    ("bad " ++ squoteStr ++ "oops") ∈ ["foo==1", "bad " ++ squoteStr ++ "oops"] ∧
    pyStrip ("bad " ++ squoteStr ++ "oops") ≠ "" ∧
    shlexSplit (pyStrip ("bad " ++ squoteStr ++ "oops")) = .error "No closing quotation" ∧
    (buildMain ["foo==1", "bad " ++ squoteStr ++ "oops"]
      (some "FROM base\n{dependencies}\n{llama_stack_install_source}\n") none).isOk = false :=
  ⟨by decide, by decide, by decide,
   (malformed_line_aborts ["foo==1", "bad " ++ squoteStr ++ "oops"]
      (some "FROM base\n{dependencies}\n{llama_stack_install_source}\n") none
      ("bad " ++ squoteStr ++ "oops") "No closing quotation"
      (by decide) (by decide) (by decide)).1⟩

/-! ### Claim C10: a trailing argument-less index flag becomes a package -/

/-- Whether the token scan of `parseParts`, run on `ps`, ends having just
consumed everything, with the final reached token being an
`--extra-index-url`/`--index-url` that still awaits its argument — in that
case one more appended token would be consumed as that argument rather than
reached on its own. -/
def danglingIndexFlag : List String → Bool
  | [] => false
  | [p] => p == "--extra-index-url" || p == "--index-url"
  | p :: q :: rest =>
    if p = "--extra-index-url" ∨ p = "--index-url" then danglingIndexFlag rest
    else danglingIndexFlag (q :: rest)

theorem parseParts_append_flag : ∀ (n : Nat) (ps : List String), ps.length ≤ n →
    ∀ f : String, (f = "--extra-index-url" ∨ f = "--index-url") →
    danglingIndexFlag ps = false →
    parseParts (ps ++ [f]) =
      ((parseParts ps).1 ++ [f], (parseParts ps).2.1, (parseParts ps).2.2) := by
  intro n
  induction n with
  | zero =>
    intro ps hn f hf _
    have : ps = [] := List.eq_nil_of_length_eq_zero (Nat.le_zero.mp hn)
    subst this
    rcases hf with rfl | rfl <;> decide
  | succ n ih =>
    intro ps hn f hf hd
    match ps with
    | [] => rcases hf with rfl | rfl <;> decide
    | [p] =>
      simp only [danglingIndexFlag, Bool.or_eq_false_iff, beq_eq_false_iff_ne, ne_eq] at hd
      have hp1 : p ≠ "--extra-index-url" := hd.1
      have hp2 : p ≠ "--index-url" := hd.2
      by_cases hp3 : p = "--no-deps" ∨ p = "--no-cache"
      · simp only [List.cons_append, List.nil_append]
        rcases hf with rfl | rfl <;> simp [parseParts, hp1, hp2, hp3]
      · simp only [List.cons_append, List.nil_append]
        rcases hf with rfl | rfl <;> simp [parseParts, hp1, hp2, hp3]
    | p :: q :: rest =>
      simp only [List.length_cons] at hn
      by_cases hp : p = "--extra-index-url" ∨ p = "--index-url"
      · have hd' : danglingIndexFlag rest = false := by
          simp only [danglingIndexFlag, if_pos hp] at hd
          exact hd
        have hrec := ih rest (by omega) f hf hd'
        rcases hp with rfl | rfl <;>
          simp [parseParts, hrec]
      · have hd' : danglingIndexFlag (q :: rest) = false := by
          simp only [danglingIndexFlag, if_neg hp] at hd
          exact hd
        have hrec := ih (q :: rest) (by simp; omega) f hf hd'
        push_neg at hp
        simp only [List.cons_append] at hrec
        by_cases hp3 : p = "--no-deps" ∨ p = "--no-cache"
        · simp [parseParts, hp.1, hp.2, hp3, hrec]
        · simp [parseParts, hp.1, hp.2, hp3, hrec]

/-- C10 (amended): when the parser actually reaches an `--extra-index-url` or
`--index-url` standing as the final token with no following argument (that
is, the preceding tokens do not leave a dangling index flag that would
consume it), the bare flag string is collected as a package token, the flag
list and recorded URL are unchanged, and — absent other recognized flags —
the directive is categorized Standard with the bare flag string among its
normalized packages (`build.py` lines 149-163 and 199-214). -/
theorem trailing_index_flag_is_package (ps : List String) (f : String)
    (hf : f = "--extra-index-url" ∨ f = "--index-url")
    (hd : danglingIndexFlag ps = false) :
    parseParts (ps ++ [f]) =
      ((parseParts ps).1 ++ [f], (parseParts ps).2.1, (parseParts ps).2.2) ∧
    ((parseParts ps).2.1 = [] → (parseParts ps).2.2 = none →
      categorize (parseParts (ps ++ [f])).2.1 (parseParts (ps ++ [f])).2.2 = .standard ∧
      f ∈ normalizePkgs (parseParts (ps ++ [f])).1) := by
  have hmain := parseParts_append_flag ps.length ps le_rfl f hf hd
  refine ⟨hmain, fun hfl heiu => ?_⟩
  rw [hmain]
  simp only [hfl, heiu]
  refine ⟨rfl, ?_⟩
  have hnorm : normalizeToken f = f := by
    rcases hf with rfl | rfl <;> decide
  have hmem : f ∈ sortedSet ((parseParts ps).1 ++ [f]) := mem_sortedSet.mpr (by simp)
  unfold normalizePkgs
  rw [mem_sortedSet]
  have hmem2 := List.mem_map_of_mem dottedRewrite
    (List.mem_map_of_mem pymilvusPatch (List.mem_map_of_mem quoteRedirect hmem))
  unfold normalizeToken at hnorm
  rw [hnorm] at hmem2
  exact hmem2

/-- C10 as stated is false on the code: in the line
`--index-url --extra-index-url` the final token `--extra-index-url` has no
following argument, yet it is consumed as the URL argument of the preceding
`--index-url` — the package list stays empty and the directive is
categorized ExtraIndex, not Standard. -/
theorem trailing_index_flag_counterexample :
    parseParts ["--index-url", "--extra-index-url"] =
      ([], ["--index-url", "--extra-index-url"], none) ∧
    lineEntry "--index-url --extra-index-url" =
      .ok (some (.extraIndex, "RUN uv pip install --index-url --extra-index-url")) := by
  exact ⟨by decide, by decide⟩

/-! ### Claim C5: blank lines and package-list emptiness -/

theorem sortedSet_eq_nil {l : List String} : sortedSet l = [] ↔ l = [] := by
  constructor
  · intro h
    have hlen : (sortedSet l).length = l.dedup.length :=
      (List.perm_insertionSort strLe l.dedup).length_eq
    rw [h] at hlen
    exact (List.dedup_eq_nil l).mp (List.eq_nil_of_length_eq_zero hlen.symm)
  · intro h
    subst h
    rfl

theorem normalizePkgs_eq_nil {pkgs : List String} :
    normalizePkgs pkgs = [] ↔ pkgs = [] := by
  unfold normalizePkgs
  rw [sortedSet_eq_nil, List.map_eq_nil_iff, List.map_eq_nil_iff, List.map_eq_nil_iff, sortedSet_eq_nil]

/-- C5 (amended): a blank (empty or whitespace-only) resolver line is
discarded before parsing and never produces a directive; a non-blank line
that tokenizes successfully emits exactly one instruction, rendered from its
normalized package list, and that list is non-empty whenever the line
contains at least one package token — but a line consisting solely of flag
tokens is emitted with an empty package list (see the counterexample)
(`build.py` lines 133-136 and 199-214). -/
theorem blank_skip_and_packages (line : String) :
    (pyStrip line = "" → lineEntry line = .ok none) ∧
    (∀ parts, pyStrip line ≠ "" → shlexSplit (pyStrip line) = .ok parts →
      lineEntry line = .ok (some (categorize (parseParts parts).2.1 (parseParts parts).2.2,
        renderCmd (categorize (parseParts parts).2.1 (parseParts parts).2.2)
          (parseParts parts).2.1 (normalizePkgs (parseParts parts).1))) ∧
      ((parseParts parts).1 ≠ [] → normalizePkgs (parseParts parts).1 ≠ [])) := by
  constructor
  · intro h
    unfold lineEntry
    simp [h]
  · intro parts hne hok
    constructor
    · unfold lineEntry
      simp [hne, hok]
    · intro hp
      exact fun hcon => hp (normalizePkgs_eq_nil.mp hcon)

/-- C5 as stated is false on the code: the non-blank line `--no-deps`
produces an emitted install instruction whose package list is empty. -/
theorem flag_only_line_counterexample :
    pyStrip "--no-deps" ≠ "" ∧
    lineEntry "--no-deps" = .ok (some (.noDeps, "RUN uv pip install --no-deps")) ∧
    (parseParts ["--no-deps"]).1 = [] ∧
    get_dependencies ["--no-deps"] =
      .ok (pinned_cmd ++ "\n" ++ "RUN uv pip install --no-deps") :=
  ⟨by decide, by decide, by decide, by decide⟩

theorem blank_skip_and_packages_witness :
    lineEntry "   " = .ok none ∧
    shlexSplit (pyStrip "numpy==1.26 scipy==1.11") = .ok ["numpy==1.26", "scipy==1.11"] ∧
    normalizePkgs (parseParts ["numpy==1.26", "scipy==1.11"]).1 ≠ [] :=
  ⟨(blank_skip_and_packages "   ").1 (by decide),
   by decide,
   ((blank_skip_and_packages "numpy==1.26 scipy==1.11").2 ["numpy==1.26", "scipy==1.11"]
      (by decide) (by decide)).2 (by decide)⟩

/-! ### Claims C1 and C2: assembly order and determinism -/

/-- The (category, rendered instruction) entries of a run, in input order;
`.error` when some line fails to tokenize.  This is the directive stream the
accumulation loop of `get_dependencies` distributes into its four lists. -/
def entriesOf : List String → Except String (List (Cat × String))
  | [] => .ok []
  | line :: rest =>
    match lineEntry line with
    | .error e => .error e
    | .ok none => entriesOf rest
    | .ok (some x) =>
      match entriesOf rest with
      | .error e => .error e
      | .ok es => .ok (x :: es)

/-- The rendered instructions of one category, in entry order. -/
def bucket (c : Cat) (es : List (Cat × String)) : List String :=
  (es.filter (fun e => e.1 == c)).map (fun e => e.2)

theorem buildLists_ok {lines : List String} {es : List (Cat × String)}
    (h : entriesOf lines = .ok es) :
    ∀ s t nd nc, buildLists lines s t nd nc =
      .ok (s ++ bucket .standard es, t ++ bucket .extraIndex es,
           nd ++ bucket .noDeps es, nc ++ bucket .noCache es) := by
  induction lines generalizing es with
  | nil =>
    simp only [entriesOf] at h
    cases h
    intro s t nd nc
    simp [buildLists, bucket]
  | cons l rest ih =>
    intro s t nd nc
    simp only [entriesOf] at h
    cases hl : lineEntry l with
    | error e => rw [hl] at h; cases h
    | ok v =>
      rw [hl] at h
      cases v with
      | none =>
        simp only [buildLists, hl]
        exact ih h s t nd nc
      | some x =>
        cases hr : entriesOf rest with
        | error e => rw [hr] at h; cases h
        | ok es' =>
          rw [hr] at h
          cases h
          obtain ⟨cat, cmd⟩ := x
          cases cat <;>
            (simp only [buildLists, hl]
             rw [ih hr]
             simp [bucket, List.filter_cons, List.append_assoc])

theorem buildLists_err {lines : List String} {e : String}
    (h : entriesOf lines = .error e) :
    ∀ s t nd nc, buildLists lines s t nd nc = .error e := by
  induction lines with
  | nil => simp only [entriesOf] at h; cases h
  | cons l rest ih =>
    intro s t nd nc
    simp only [entriesOf] at h
    cases hl : lineEntry l with
    | error e' =>
      rw [hl] at h
      cases h
      simp [buildLists, hl]
    | ok v =>
      rw [hl] at h
      cases v with
      | none =>
        simp only [buildLists, hl]
        exact ih h s t nd nc
      | some x =>
        cases hr : entriesOf rest with
        | error e' =>
          rw [hr] at h
          cases h
          obtain ⟨cat, cmd⟩ := x
          cases cat <;> (simp only [buildLists, hl]; exact ih hr _ _ _ _)
        | ok es' => rw [hr] at h; cases h

/-- The entry a line contributes on the success path. -/
def okEntry (line : String) : Option (Cat × String) :=
  match lineEntry line with
  | .ok (some x) => some x
  | _ => none

theorem entriesOf_ok_of_all {lines : List String}
    (h : ∀ l ∈ lines, (lineEntry l).isOk = true) :
    entriesOf lines = .ok (lines.filterMap okEntry) := by
  induction lines with
  | nil => rfl
  | cons l rest ih =>
    have hl := h l (by simp)
    have hrest := ih (fun x hx => h x (by simp [hx]))
    simp only [entriesOf, List.filterMap_cons]
    cases he : lineEntry l with
    | error e =>
      rw [he] at hl
      simp [Except.isOk, Except.toBool] at hl
    | ok v =>
      cases v with
      | none => simp [okEntry, he, hrest]
      | some x => simp [okEntry, he, hrest]

theorem entriesOf_all_ok {lines : List String} {es : List (Cat × String)}
    (h : entriesOf lines = .ok es) :
    ∀ l ∈ lines, (lineEntry l).isOk = true := by
  induction lines generalizing es with
  | nil => intro l hl; cases hl
  | cons l0 rest ih =>
    intro l hl
    simp only [entriesOf] at h
    cases he : lineEntry l0 with
    | error e => rw [he] at h; cases h
    | ok v =>
      rw [he] at h
      rcases List.mem_cons.mp hl with rfl | hmem
      · simp [he, Except.isOk, Except.toBool]
      · cases v with
        | none => exact ih h l hmem
        | some x =>
          cases hr : entriesOf rest with
          | error e => rw [hr] at h; cases h
          | ok es' => exact ih hr l hmem

/-- C1: on every resolver stream whose lines all tokenize (entries `es`),
the assembled RecipeBody is the pinned-override instruction first —
regardless of the resolver output — followed by the Standard, ExtraIndex,
NoDeps and NoCache buckets in that fixed order, each bucket the
lexicographically sorted list of its fully-rendered instruction texts
(`build.py` lines 216-231). -/
theorem recipe_body_structure (lines : List String) (es : List (Cat × String))
    (h : entriesOf lines = .ok es) :
    get_dependencies lines = .ok (String.intercalate "\n"
      (pinned_cmd :: (sortStr (bucket .standard es) ++ sortStr (bucket .extraIndex es) ++
        sortStr (bucket .noDeps es) ++ sortStr (bucket .noCache es)))) ∧
    ∀ c : Cat, List.Sorted strLe (sortStr (bucket c es)) := by
  refine ⟨?_, fun c => sortStr_sorted _⟩
  unfold get_dependencies
  rw [buildLists_ok h [] [] [] []]
  have hpin : PINNED_DEPENDENCIES.isEmpty = false := by decide
  simp [hpin]

/-- C2: the assembled RecipeBody is byte-identical under any permutation of
the raw directive lines (sorting within each bucket removes the input-order
dependence; `build.py` lines 165-197 and 225-228). -/
theorem recipe_body_deterministic (lines₁ lines₂ : List String) (body : String)
    (hperm : lines₁.Perm lines₂) (h : get_dependencies lines₁ = .ok body) :
    get_dependencies lines₂ = .ok body := by
  cases h1 : entriesOf lines₁ with
  | error e =>
    unfold get_dependencies at h
    rw [buildLists_err h1 [] [] [] []] at h
    cases h
  | ok es₁ =>
    have hall₁ := entriesOf_all_ok h1
    have hall₂ : ∀ l ∈ lines₂, (lineEntry l).isOk = true := fun l hl =>
      hall₁ l (hperm.mem_iff.mpr hl)
    have h1' := entriesOf_ok_of_all hall₁
    have h2 := entriesOf_ok_of_all hall₂
    have hpermE : (lines₁.filterMap okEntry).Perm (lines₂.filterMap okEntry) :=
      hperm.filterMap okEntry
    have hb : ∀ c, sortStr (bucket c (lines₂.filterMap okEntry)) =
        sortStr (bucket c (lines₁.filterMap okEntry)) := fun c =>
      sortStr_eq_of_perm ((hpermE.filter _).map _).symm
    unfold get_dependencies at h ⊢
    rw [buildLists_ok h1' [] [] [] []] at h
    rw [buildLists_ok h2 [] [] [] []]
    simp only [List.nil_append] at h ⊢
    rw [hb, hb, hb, hb]
    exact h

theorem recipe_body_structure_witness :
    entriesOf ["b==2 a==1", "torch==1 --extra-index-url u", "x==1 --no-deps",
      "y==1 --no-cache"] = .ok
      [(Cat.standard, "RUN uv pip install \\\n    a==1 \\\n    b==2"),
       (Cat.extraIndex, "RUN uv pip install --extra-index-url u torch==1"),
       (Cat.noDeps, "RUN uv pip install --no-deps x==1"),
       (Cat.noCache, "RUN uv pip install --no-cache y==1")] ∧
    get_dependencies ["b==2 a==1", "torch==1 --extra-index-url u", "x==1 --no-deps",
      "y==1 --no-cache"] = .ok (String.intercalate "\n" (pinned_cmd ::
        (sortStr (bucket .standard
            [(Cat.standard, "RUN uv pip install \\\n    a==1 \\\n    b==2"),
             (Cat.extraIndex, "RUN uv pip install --extra-index-url u torch==1"),
             (Cat.noDeps, "RUN uv pip install --no-deps x==1"),
             (Cat.noCache, "RUN uv pip install --no-cache y==1")]) ++
         sortStr (bucket .extraIndex
            [(Cat.standard, "RUN uv pip install \\\n    a==1 \\\n    b==2"),
             (Cat.extraIndex, "RUN uv pip install --extra-index-url u torch==1"),
             (Cat.noDeps, "RUN uv pip install --no-deps x==1"),
             (Cat.noCache, "RUN uv pip install --no-cache y==1")]) ++
         sortStr (bucket .noDeps
            [(Cat.standard, "RUN uv pip install \\\n    a==1 \\\n    b==2"),
             (Cat.extraIndex, "RUN uv pip install --extra-index-url u torch==1"),
             (Cat.noDeps, "RUN uv pip install --no-deps x==1"),
             (Cat.noCache, "RUN uv pip install --no-cache y==1")]) ++
         sortStr (bucket .noCache
            [(Cat.standard, "RUN uv pip install \\\n    a==1 \\\n    b==2"),
             (Cat.extraIndex, "RUN uv pip install --extra-index-url u torch==1"),
             (Cat.noDeps, "RUN uv pip install --no-deps x==1"),
             (Cat.noCache, "RUN uv pip install --no-cache y==1")])))) :=
  ⟨by decide,
   (recipe_body_structure _
      [(Cat.standard, "RUN uv pip install \\\n    a==1 \\\n    b==2"),
       (Cat.extraIndex, "RUN uv pip install --extra-index-url u torch==1"),
       (Cat.noDeps, "RUN uv pip install --no-deps x==1"),
       (Cat.noCache, "RUN uv pip install --no-cache y==1")] (by decide)).1⟩

theorem recipe_body_deterministic_witness :
    get_dependencies ["x==1 --no-deps", "b==2 a==1"] =
      .ok (pinned_cmd ++ "\n" ++ "RUN uv pip install \\\n    a==1 \\\n    b==2" ++ "\n" ++
        "RUN uv pip install --no-deps x==1") ∧
    get_dependencies ["b==2 a==1", "x==1 --no-deps"] =
      .ok (pinned_cmd ++ "\n" ++ "RUN uv pip install \\\n    a==1 \\\n    b==2" ++ "\n" ++
        "RUN uv pip install --no-deps x==1") :=
  ⟨by decide,
   recipe_body_deterministic ["x==1 --no-deps", "b==2 a==1"] ["b==2 a==1", "x==1 --no-deps"]
     (pinned_cmd ++ "\n" ++ "RUN uv pip install \\\n    a==1 \\\n    b==2" ++ "\n" ++
       "RUN uv pip install --no-deps x==1")
     (List.Perm.swap "b==2 a==1" "x==1 --no-deps" []) (by decide)⟩

theorem trailing_index_flag_is_package_witness :
    parseParts (["foo==1"] ++ ["--extra-index-url"]) =
      (["foo==1", "--extra-index-url"], [], none) ∧
    categorize (parseParts (["foo==1"] ++ ["--extra-index-url"])).2.1
      (parseParts (["foo==1"] ++ ["--extra-index-url"])).2.2 = .standard ∧
    "--extra-index-url" ∈ normalizePkgs (parseParts (["foo==1"] ++ ["--extra-index-url"])).1 := by
  have h := trailing_index_flag_is_package ["foo==1"] "--extra-index-url"
    (Or.inl rfl) (by decide)
  refine ⟨?_, (h.2 (by decide) (by decide)).1, (h.2 (by decide) (by decide)).2⟩
  rw [h.1]
  decide

/-! ### Claim C6: the pymilvus patch condition -/

theorem isPre_length {pat l : List Char} (h : isPre pat l = true) :
    pat.length ≤ l.length := by
  induction pat generalizing l with
  | nil => simp
  | cons p pt ih =>
    cases l with
    | nil => simp [isPre] at h
    | cons x xs =>
      simp only [isPre, Bool.and_eq_true] at h
      simpa using ih h.2

theorem replaceGo_length_ge {pat repl : List Char} (hpr : pat.length ≤ repl.length)
    (hp : 0 < pat.length) :
    ∀ (f : Nat) (l : List Char), l.length ≤ f →
      l.length ≤ (replaceGo pat repl f l).length := by
  intro f
  induction f with
  | zero =>
    intro l hl
    simp [replaceGo]
  | succ f ih =>
    intro l hl
    cases l with
    | nil => simp [replaceGo]
    | cons c rest =>
      simp only [replaceGo]
      split_ifs with hpre
      · have hplen : pat.length ≤ rest.length + 1 := by simpa using isPre_length hpre
        have hdrop : (List.drop (pat.length - 1) rest).length = rest.length - (pat.length - 1) :=
          List.length_drop _ _
        have hrec := ih (List.drop (pat.length - 1) rest)
          (by rw [hdrop]; simp only [List.length_cons] at hl; omega)
        rw [hdrop] at hrec
        simp only [List.length_append, List.length_cons]
        simp only [List.length_cons] at hl
        omega
      · have hrec := ih rest (by simp only [List.length_cons] at hl; omega)
        simp only [List.length_cons]
        omega

theorem replaceGo_length_gt {pat repl : List Char} (hpr : pat.length < repl.length)
    (hp : 0 < pat.length) :
    ∀ (f : Nat) (l : List Char), l.length ≤ f → containsSub pat l = true →
      l.length < (replaceGo pat repl f l).length := by
  intro f
  induction f with
  | zero =>
    intro l hl hc
    have : l = [] := List.eq_nil_of_length_eq_zero (Nat.le_zero.mp hl)
    subst this
    simp only [containsSub, List.isEmpty_iff] at hc
    rw [hc] at hp
    simp at hp
  | succ f ih =>
    intro l hl hc
    cases l with
    | nil =>
      simp only [containsSub, List.isEmpty_iff] at hc
      rw [hc] at hp
      simp at hp
    | cons c rest =>
      simp only [replaceGo]
      split_ifs with hpre
      · have hplen : pat.length ≤ rest.length + 1 := by simpa using isPre_length hpre
        have hdrop : (List.drop (pat.length - 1) rest).length = rest.length - (pat.length - 1) :=
          List.length_drop _ _
        have hrec := replaceGo_length_ge (le_of_lt hpr) hp f (List.drop (pat.length - 1) rest)
          (by rw [hdrop]; simp only [List.length_cons] at hl; omega)
        rw [hdrop] at hrec
        simp only [List.length_append, List.length_cons]
        simp only [List.length_cons] at hl
        omega
      · simp only [containsSub, hpre, Bool.false_or] at hc
        have hrec := ih rest (by simp only [List.length_cons] at hl; omega) hc
        simp only [List.length_cons]
        omega

/-- C6 (amended): the pymilvus patch rewrites a token iff the token contains
the substring `pymilvus` and does not contain the substring `[milvus-lite]` —
substring containment, not "the token's package name is exactly pymilvus".
When it fires it replaces every occurrence of `pymilvus` by
`pymilvus[milvus-lite]`, strictly lengthening (hence really changing) the
token; every other token is returned unchanged (`build.py` lines 174-180). -/
theorem pymilvus_patch_condition (t : String) :
    (¬(containsSub pymilvusPat t.data = true ∧ containsSub milvusLitePat t.data = false) →
      pymilvusPatch t = t) ∧
    (containsSub pymilvusPat t.data = true → containsSub milvusLitePat t.data = false →
      pymilvusPatch t = String.mk (replaceAll pymilvusPat pymilvusRepl t.data) ∧
      pymilvusPatch t ≠ t) := by
  constructor
  · intro h
    have hcond : ¬(containsSub pymilvusPat t.data && !containsSub milvusLitePat t.data) = true := by
      intro hcon
      simp only [Bool.and_eq_true, Bool.not_eq_true'] at hcon
      exact h ⟨hcon.1, hcon.2⟩
    simp [pymilvusPatch, hcond]
  · intro h1 h2
    have hcond : (containsSub pymilvusPat t.data && !containsSub milvusLitePat t.data) = true := by
      simp [h1, h2]
    have hdata : pymilvusPatch t = String.mk (replaceAll pymilvusPat pymilvusRepl t.data) := by
      simp [pymilvusPatch, hcond]
    refine ⟨hdata, fun he => ?_⟩
    have hlen : t.data.length < (replaceAll pymilvusPat pymilvusRepl t.data).length :=
      replaceGo_length_gt (by decide) (by decide) t.data.length t.data le_rfl h1
    rw [he] at hdata
    have : t.data = replaceAll pymilvusPat pymilvusRepl t.data :=
      congrArg String.data hdata
    rw [← this] at hlen
    exact lt_irrefl _ hlen

/-- C6 as stated is false on the code: the token `pymilvusx==1.0`, whose
package name is `pymilvusx` and not exactly `pymilvus`, is nevertheless
rewritten, because the code tests substring containment. -/
theorem pymilvus_patch_counterexample :
    pymilvusPatch "pymilvusx==1.0" = "pymilvus[milvus-lite]x==1.0" ∧
    pymilvusPatch "pymilvusx==1.0" ≠ "pymilvusx==1.0" :=
  ⟨by decide, by decide⟩

theorem pymilvus_patch_condition_witness :
    pymilvusPatch "pymilvus==2.4.0" =
      String.mk (replaceAll pymilvusPat pymilvusRepl "pymilvus==2.4.0".data) ∧
    pymilvusPatch "pymilvus==2.4.0" = "pymilvus[milvus-lite]==2.4.0" ∧
    pymilvusPatch "pymilvus[milvus-lite]==2.4.0" = "pymilvus[milvus-lite]==2.4.0" :=
  ⟨((pymilvus_patch_condition "pymilvus==2.4.0").2 (by decide) (by decide)).1,
   by decide,
   (pymilvus_patch_condition "pymilvus[milvus-lite]==2.4.0").1 (by decide)⟩

/-! ### Substring transfer through the rewrites (towards claim C3) -/

theorem isPre_append {p u : List Char} (h : isPre p u = true) (v : List Char) :
    isPre p (u ++ v) = true := by
  induction p generalizing u with
  | nil => rfl
  | cons a as ih =>
    cases u with
    | nil => simp [isPre] at h
    | cons x xs =>
      simp only [isPre, Bool.and_eq_true] at h
      simp only [List.cons_append, isPre, Bool.and_eq_true]
      exact ⟨h.1, ih h.2⟩

theorem containsSub_cons {p rest : List Char} {c : Char}
    (h : containsSub p rest = true) : containsSub p (c :: rest) = true := by
  simp [containsSub, h]

theorem containsSub_append_left {p a : List Char} (h : containsSub p a = true)
    (b : List Char) : containsSub p (a ++ b) = true := by
  induction a with
  | nil =>
    simp only [containsSub, List.isEmpty_iff] at h
    subst h
    cases b with
    | nil => rfl
    | cons x xs => simp [containsSub, isPre]
  | cons x xs ih =>
    simp only [containsSub, Bool.or_eq_true] at h
    simp only [List.cons_append, containsSub, Bool.or_eq_true]
    rcases h with h | h
    · exact Or.inl (isPre_append h b)
    · exact Or.inr (ih h)

theorem containsSub_append_right {p b : List Char} (h : containsSub p b = true)
    (a : List Char) : containsSub p (a ++ b) = true := by
  induction a with
  | nil => exact h
  | cons x xs ih =>
    simp only [List.cons_append, containsSub, Bool.or_eq_true]
    exact Or.inr ih

theorem isPre_through {p xs ys : List Char} {d : Char} (hd : d ∉ p)
    (h : isPre p (xs ++ d :: ys) = true) : isPre p xs = true := by
  induction p generalizing xs with
  | nil => rfl
  | cons a as ih =>
    cases xs with
    | nil =>
      simp only [List.nil_append, isPre, Bool.and_eq_true, beq_iff_eq] at h
      exact absurd (h.1 ▸ List.mem_cons_self a as) hd
    | cons x xt =>
      simp only [List.cons_append, isPre, Bool.and_eq_true] at h ⊢
      exact ⟨h.1, ih (fun hm => hd (List.mem_cons_of_mem _ hm)) h.2⟩

theorem containsSub_split {p ys : List Char} (d : Char) (hd : d ∉ p) :
    ∀ {xs : List Char}, containsSub p (xs ++ d :: ys) = true →
      containsSub p xs = true ∨ containsSub p ys = true := by
  intro xs
  induction xs with
  | nil =>
    intro h
    simp only [List.nil_append, containsSub, Bool.or_eq_true] at h
    rcases h with h | h
    · cases p with
      | nil => exact Or.inl rfl
      | cons a as =>
        simp only [isPre, Bool.and_eq_true, beq_iff_eq] at h
        exact absurd (h.1 ▸ List.mem_cons_self a as) hd
    · exact Or.inr h
  | cons x xt ih =>
    intro h
    simp only [List.cons_append, containsSub, Bool.or_eq_true] at h
    rcases h with h | h
    · exact Or.inl (by
        simp only [containsSub, Bool.or_eq_true]
        exact Or.inl (isPre_through hd h))
    · rcases ih h with h2 | h2
      · exact Or.inl (containsSub_cons h2)
      · exact Or.inr h2

theorem containsSub_peel_head {p ys : List Char} {c : Char} (hp : p ≠ [])
    (hne : p.head? ≠ some c) (h : containsSub p (c :: ys) = true) :
    containsSub p ys = true := by
  simp only [containsSub, Bool.or_eq_true] at h
  rcases h with h | h
  · cases p with
    | nil => exact absurd rfl hp
    | cons a as =>
      simp only [isPre, Bool.and_eq_true, beq_iff_eq] at h
      exact absurd (by rw [h.1]; rfl) hne
  · exact h

theorem containsSub_peel_run {p : List Char} (hp : p ≠ []) :
    ∀ (xs : List Char), (∀ x ∈ xs, p.head? ≠ some x) →
      ∀ {ys : List Char}, containsSub p (xs ++ ys) = true → containsSub p ys = true := by
  intro xs
  induction xs with
  | nil => intro _ ys h; exact h
  | cons x xt ih =>
    intro hxs ys h
    simp only [List.cons_append] at h
    exact ih (fun y hy => hxs y (by simp [hy]))
      (containsSub_peel_head hp (hxs x (by simp)) h)

theorem identChar_not_special {x : Char} (h : isIdentChar x = true) :
    x ≠ '.' ∧ x ≠ '[' ∧ x ≠ ']' ∧ x ≠ '=' ∧ x ≠ '>' ∧ x ≠ '<' ∧ x ≠ '~' ∧ x ≠ '!' := by
  refine ⟨?_, ?_, ?_, ?_, ?_, ?_, ?_, ?_⟩ <;> (rintro rfl; revert h; decide)

theorem op_mem_special {l op r2 : List Char} (h : matchOp l = some (op, r2)) :
    ∀ x ∈ op, x = '=' ∨ x = '>' ∨ x = '<' ∨ x = '~' ∨ x = '!' := by
  rcases (matchOp_shape h).2 with h' | h' | h' | h' | h' | h' | h' <;> subst h' <;>
    intro x hx <;> simp only [List.mem_cons, List.not_mem_nil, or_false] at hx <;>
    first
      | (rcases hx with rfl | rfl
         · simp
         · simp)
      | (subst hx; simp)

/-- A prefix made of non-dot characters survives the dotted rewrite. -/
theorem isPre_dottedSubW {p : List Char} (hp : ∀ x ∈ p, x ≠ '.') :
    ∀ {m : List Char}, isPre p m = true → isPre p (dottedSubW m) = true := by
  induction p with
  | nil => intro m _; rfl
  | cons a as ih =>
    intro m h
    cases m with
    | nil => simp [isPre] at h
    | cons x xs =>
      simp only [isPre, Bool.and_eq_true, beq_iff_eq] at h
      have hx : x ≠ '.' := h.1 ▸ hp a (by simp)
      rw [dottedSubW_none (tryDot_none_head hx xs)]
      simp only [isPre, Bool.and_eq_true, beq_iff_eq]
      exact ⟨h.1, ih (fun y hy => hp y (by simp [hy])) h.2⟩

/-- A prefix made of non-bracket characters in the output of the dotted
rewrite was already a prefix of the input. -/
theorem isPre_of_dottedSubW {p : List Char} (hp : ∀ x ∈ p, x ≠ '[') :
    ∀ {m : List Char}, isPre p (dottedSubW m) = true → isPre p m = true := by
  induction p with
  | nil => intro m _; rfl
  | cons a as ih =>
    intro m h
    cases m with
    | nil =>
      rw [dottedSubW_nil] at h
      simp [isPre] at h
    | cons x xs =>
      cases ht : tryDot (x :: xs) with
      | some q =>
        obtain ⟨id, op, r2⟩ := q
        rw [dottedSubW_some ht] at h
        simp only [List.cons_append, isPre, Bool.and_eq_true, beq_iff_eq] at h
        exact absurd h.1 (hp a (by simp))
      | none =>
        rw [dottedSubW_none ht] at h
        simp only [isPre, Bool.and_eq_true, beq_iff_eq] at h ⊢
        exact ⟨h.1, ih (fun y hy => hp y (by simp [hy])) h.2⟩

theorem matchOp_none_dotted {b : Char} {B' : List Char} (h : matchOp (b :: B') = none) :
    matchOp (b :: dottedSubW B') = none := by
  by_cases hb1 : b = '=' ∨ b = '~' ∨ b = '!'
  · rw [matchOp_pair hb1] at h ⊢
    cases B' with
    | nil => rw [dottedSubW_nil]
    | cons e t =>
      by_cases he : e = '='
      · simp [he] at h
      · cases ht : tryDot (e :: t) with
        | some q =>
          obtain ⟨id, op, r2⟩ := q
          rw [dottedSubW_some ht]
          have hbr : ('[' : Char) ≠ '=' := by decide
          simp only [List.cons_append]
          simp [hbr]
        | none =>
          rw [dottedSubW_none ht]
          simp [he]
  · by_cases hb2 : b = '>' ∨ b = '<'
    · exfalso
      have hs := matchOp_single hb2 B'
      rw [h] at hs
      simp at hs
    · push_neg at hb1 hb2
      exact matchOp_none_head hb1.1 hb2.1 hb2.2 hb1.2.1 hb1.2.2 _

/-- A position where the regex failed to match still fails after the rest of
the list is rewritten: the rewrite never creates a new match site. -/
theorem tryDot_none_dotted {c : Char} {rest : List Char} (h : tryDot (c :: rest) = none) :
    tryDot (c :: dottedSubW rest) = none := by
  by_cases hc : c = '.'
  case neg => exact tryDot_none_head hc _
  case pos =>
    subst hc
    cases rest with
    | nil => rw [dottedSubW_nil]; exact h
    | cons c0 rest' =>
      by_cases h0 : isIdentStart c0
      case neg =>
        cases ht : tryDot (c0 :: rest') with
        | some q =>
          obtain ⟨id, op, r2⟩ := q
          rw [dottedSubW_some ht]
          have hni : isIdentStart '[' = false := by decide
          simp only [List.cons_append]
          simp [tryDot, hni]
        | none =>
          rw [dottedSubW_none ht]
          simp [tryDot, h0]
      case pos =>
        have hc0 : c0 ≠ '.' := (identChar_not_special (identStart_identChar h0)).1
        rw [dottedSubW_none (tryDot_none_head hc0 rest')]
        have hmo : matchOp (rest'.dropWhile isIdentChar) = none := by
          simp only [tryDot, if_pos rfl, if_pos h0] at h
          cases hm : matchOp (rest'.dropWhile isIdentChar) with
          | none => rfl
          | some p =>
            rw [hm] at h
            obtain ⟨op, r2⟩ := p
            simp at h
        have hsplitAB : rest'.takeWhile isIdentChar ++ rest'.dropWhile isIdentChar = rest' :=
          List.takeWhile_append_dropWhile isIdentChar rest'
        have hAall : (rest'.takeWhile isIdentChar).all isIdentChar = true :=
          takeWhile_all rest'
        have hAnd : ∀ a ∈ rest'.takeWhile isIdentChar, a ≠ '.' := fun a ha =>
          (identChar_not_special (List.mem_takeWhile_imp ha)).1
        have hdsw : dottedSubW rest' =
            rest'.takeWhile isIdentChar ++ dottedSubW (rest'.dropWhile isIdentChar) := by
          conv_lhs => rw [← hsplitAB]
          exact dottedSubW_append_nodot hAnd _
        rw [hdsw]
        have hgoalmo : matchOp ((rest'.takeWhile isIdentChar ++
            dottedSubW (rest'.dropWhile isIdentChar)).dropWhile isIdentChar) = none := by
          rw [dropWhileAppend hAall]
          cases hB : rest'.dropWhile isIdentChar with
          | nil =>
            rw [dottedSubW_nil]
            rfl
          | cons b B' =>
            rw [hB] at hmo
            have hbni : isIdentChar b = false := dropWhile_head_false hB
            cases htB : tryDot (b :: B') with
            | some q =>
              obtain ⟨id, op, r2⟩ := q
              rw [dottedSubW_some htB]
              have h1 : isIdentChar '[' = false := by decide
              simp only [List.cons_append, List.dropWhile_cons, h1, if_false]
              exact matchOp_none_head (by decide) (by decide) (by decide) (by decide)
                (by decide) _
            | none =>
              rw [dottedSubW_none htB]
              simp only [List.dropWhile_cons, hbni, if_false]
              exact matchOp_none_dotted hmo
        simp [tryDot, h0, hgoalmo]

/-- The output of the dotted rewrite contains no match at all: the rewrite
reaches a fixed point in one pass. -/
theorem hasMatch_dottedSubW : ∀ l : List Char, hasMatch (dottedSubW l) = false := by
  intro l
  induction l using dottedSubW.induct with
  | case1 => rw [dottedSubW_nil]; rfl
  | case2 c rest id op r2 ht ih =>
    rw [dottedSubW_some ht]
    obtain ⟨-, -, hidch, -, hmo⟩ := tryDot_spec ht
    have hfront : ∀ x ∈ ('[' :: id ++ [']'] ++ op), x ≠ '.' := by
      intro x hx
      simp only [List.cons_append, List.mem_cons, List.mem_append,
        List.mem_singleton] at hx
      rcases hx with rfl | hx
      · decide
      · rcases hx with hx | hx
        · rcases hx with hx | hx
          · exact (identChar_not_special (hidch x hx)).1
          · rcases hx with rfl | hx
            · decide
            · exact absurd hx (List.not_mem_nil x)
        · rcases op_mem_special hmo x hx with rfl | rfl | rfl | rfl | rfl <;> decide
    have hshape : ('[' :: id ++ [']'] ++ op ++ dottedSubW r2) =
        (('[' :: id ++ [']'] ++ op) ++ dottedSubW r2) := by
      simp [List.append_assoc]
    rw [hshape, hasMatch_append_nodot hfront]
    exact ih
  | case3 c rest ht ih =>
    rw [dottedSubW_none ht]
    simp only [hasMatch]
    rw [tryDot_none_dotted ht]
    simp [ih]

/-- The dotted rewrite is idempotent. -/
theorem dottedSubW_idem (l : List Char) : dottedSubW (dottedSubW l) = dottedSubW l :=
  dottedSubW_of_noMatch (hasMatch_dottedSubW l)

/-- The dotted rewrite cannot create a new occurrence of a pattern made of
identifier characters (such as `pymilvus`): every such occurrence in its
output was already present in its input. -/
theorem dotted_no_create {p : List Char} (hp : ∀ x ∈ p, isIdentChar x = true) :
    ∀ {l : List Char}, containsSub p (dottedSubW l) = true → containsSub p l = true := by
  have hph : ∀ d : Char, isIdentChar d = false → p.head? ≠ some d := by
    intro d hd heq
    cases p with
    | nil => simp at heq
    | cons p0 pt =>
      have : p0 = d := by simpa using heq
      rw [← this] at hd
      rw [hp p0 (by simp)] at hd
      cases hd
  intro l
  induction l using dottedSubW.induct with
  | case1 => rw [dottedSubW_nil]; exact id
  | case2 c rest id op r2 ht ih =>
    intro h
    by_cases hpnil : p = []
    · subst hpnil
      simp [containsSub, isPre]
    rw [dottedSubW_some ht] at h
    obtain ⟨hl, -, hidch, -, hmo⟩ := tryDot_spec ht
    have hsh : ('[' :: id ++ [']'] ++ op ++ dottedSubW r2) =
        '[' :: (id ++ ']' :: (op ++ dottedSubW r2)) := by
      simp [List.cons_append, List.append_assoc]
    rw [hsh] at h
    have h1 : containsSub p (id ++ ']' :: (op ++ dottedSubW r2)) = true :=
      containsSub_peel_head hpnil (hph '[' (by decide)) h
    rcases containsSub_split ']'
        (fun hm => absurd (hp _ hm) (by decide)) h1 with h2 | h2
    · rw [hl]
      exact containsSub_cons (containsSub_append_left (containsSub_append_left h2 op) r2)
    · have h3 : containsSub p (dottedSubW r2) = true := by
        refine containsSub_peel_run hpnil op ?_ h2
        intro x hx
        rcases op_mem_special hmo x hx with rfl | rfl | rfl | rfl | rfl <;>
          exact hph _ (by decide)
      rw [hl]
      exact containsSub_cons (containsSub_append_right (ih h3) _)
  | case3 c rest ht ih =>
    intro h
    rw [dottedSubW_none ht] at h
    simp only [containsSub, Bool.or_eq_true] at h ⊢
    rcases h with h | h
    · left
      cases p with
      | nil => rfl
      | cons p0 pt =>
        simp only [isPre, Bool.and_eq_true] at h ⊢
        refine ⟨h.1, isPre_of_dottedSubW (fun y hy => ?_) h.2⟩
        exact (identChar_not_special (hp y (List.mem_cons_of_mem _ hy))).2.1
    · right
      exact ih h

/-- The dotted rewrite preserves every occurrence of a pattern that starts
with `[` and continues with dot-free characters (such as `[milvus-lite]`). -/
theorem dotted_preserve {pt : List Char} (hpt : ∀ x ∈ pt, x ≠ '.') :
    ∀ {l : List Char}, containsSub ('[' :: pt) l = true →
      containsSub ('[' :: pt) (dottedSubW l) = true := by
  intro l
  induction l using dottedSubW.induct with
  | case1 => rw [dottedSubW_nil]; exact id
  | case2 c rest id op r2 ht ih =>
    intro h
    obtain ⟨hl, -, hidch, -, hmo⟩ := tryDot_spec ht
    rw [hl] at h
    have hd : containsSub ('[' :: pt) (id ++ op ++ r2) = true := by
      refine containsSub_peel_head (by simp) ?_ h
      intro hq
      exact absurd (Option.some.inj hq) (by decide)
    have hr2 : containsSub ('[' :: pt) r2 = true := by
      refine containsSub_peel_run (by simp) (id ++ op) ?_ ?_
      · intro x hx
        intro hq
        have hxeq : '[' = x := Option.some.inj hq
        rcases List.mem_append.mp hx with hx | hx
        · exact (identChar_not_special (hidch x hx)).2.1 hxeq.symm
        · rcases op_mem_special hmo x hx with rfl | rfl | rfl | rfl | rfl <;> cases hxeq
      · exact hd
    rw [dottedSubW_some ht]
    exact containsSub_append_right (ih hr2) _
  | case3 c rest ht ih =>
    intro h
    rw [dottedSubW_none ht]
    simp only [containsSub, Bool.or_eq_true] at h ⊢
    rcases h with h | h
    · left
      simp only [isPre, Bool.and_eq_true] at h ⊢
      exact ⟨h.1, isPre_dottedSubW hpt h.2⟩
    · right
      exact ih h

theorem dottedSubW_chars : ∀ {l : List Char} {x : Char}, x ∈ dottedSubW l →
    x ∈ l ∨ x = '[' ∨ x = ']' := by
  intro l
  induction l using dottedSubW.induct with
  | case1 => intro x hx; rw [dottedSubW_nil] at hx; cases hx
  | case2 c rest id op r2 ht ih =>
    intro x hx
    rw [dottedSubW_some ht] at hx
    obtain ⟨hl, -, -, -, -⟩ := tryDot_spec ht
    have hmem : ∀ y : Char, y ∈ id ∨ y ∈ op ∨ y ∈ r2 → y ∈ c :: rest := by
      intro y hy
      rw [hl]
      simp only [List.mem_cons, List.mem_append]
      tauto
    have hsh : ('[' :: id ++ [']'] ++ op ++ dottedSubW r2) =
        '[' :: (id ++ ']' :: (op ++ dottedSubW r2)) := by
      simp [List.cons_append, List.append_assoc]
    rw [hsh] at hx
    rcases List.mem_cons.mp hx with rfl | hx
    · exact Or.inr (Or.inl rfl)
    rcases List.mem_append.mp hx with hx | hx
    · exact Or.inl (hmem x (Or.inl hx))
    rcases List.mem_cons.mp hx with rfl | hx
    · exact Or.inr (Or.inr rfl)
    rcases List.mem_append.mp hx with hx | hx
    · exact Or.inl (hmem x (Or.inr (Or.inl hx)))
    rcases ih hx with hx2 | hx2
    · exact Or.inl (hmem x (Or.inr (Or.inr hx2)))
    · exact Or.inr hx2
  | case3 c rest ht ih =>
    intro x hx
    rw [dottedSubW_none ht] at hx
    rcases List.mem_cons.mp hx with rfl | hx
    · exact Or.inl (by simp)
    · rcases ih hx with hx2 | hx2
      · exact Or.inl (List.mem_cons_of_mem c hx2)
      · exact Or.inr hx2

theorem replaceGo_chars {pat repl : List Char} :
    ∀ (f : Nat) (l : List Char) (x : Char), x ∈ replaceGo pat repl f l →
      x ∈ l ∨ x ∈ repl := by
  intro f
  induction f with
  | zero => intro l x hx; exact Or.inl hx
  | succ f ih =>
    intro l x hx
    cases l with
    | nil => simp [replaceGo] at hx
    | cons c rest =>
      simp only [replaceGo] at hx
      split_ifs at hx with hpre
      · rcases List.mem_append.mp hx with hx | hx
        · exact Or.inr hx
        · rcases ih _ x hx with hx | hx
          · exact Or.inl (List.mem_cons_of_mem c (List.drop_subset _ _ hx))
          · exact Or.inr hx
      · rcases List.mem_cons.mp hx with rfl | hx
        · exact Or.inl (by simp)
        · rcases ih _ x hx with hx | hx
          · exact Or.inl (List.mem_cons_of_mem c hx)
          · exact Or.inr hx

theorem replace_gives_extra :
    ∀ (f : Nat) (l : List Char), l.length ≤ f → containsSub pymilvusPat l = true →
      containsSub milvusLitePat (replaceGo pymilvusPat pymilvusRepl f l) = true := by
  intro f
  induction f with
  | zero =>
    intro l hl hc
    have : l = [] := List.eq_nil_of_length_eq_zero (Nat.le_zero.mp hl)
    subst this
    simp only [containsSub] at hc
    exact absurd hc (by decide)
  | succ f ih =>
    intro l hl hc
    cases l with
    | nil =>
      simp only [containsSub] at hc
      exact absurd hc (by decide)
    | cons c rest =>
      simp only [replaceGo]
      split_ifs with hpre
      · exact containsSub_append_left (by decide) _
      · simp only [containsSub, hpre, Bool.false_or] at hc
        exact containsSub_cons (ih rest (by simp only [List.length_cons] at hl; omega) hc)

/-- C3 (amended): the per-token normalization (quote, pymilvus patch, dotted
rewrite, in that order) is idempotent on every token that contains neither
`>` nor `<`.  On tokens containing a redirection character it is not
idempotent — the quoting step wraps a fresh pair of quotes on every
application (see the counterexample). -/
theorem normalizeToken_idem (t : String) (hgt : t.data.contains '>' = false)
    (hlt : t.data.contains '<' = false) :
    normalizeToken (normalizeToken t) = normalizeToken t := by
  have hq : quoteRedirect t = t := by
    unfold quoteRedirect
    rw [hgt, hlt]
    simp
  set y : String := pymilvusPatch t with hy
  have hnt : normalizeToken t = dottedRewrite y := by
    unfold normalizeToken
    rw [hq]
  set z : String := dottedRewrite y with hz
  have hzdata : z.data = dottedSubW y.data := by
    rw [hz, dottedRewrite_eq]
  have hychars : ∀ x, x ∈ y.data → x ∈ t.data ∨ x ∈ pymilvusRepl := by
    intro x hx
    rw [hy] at hx
    unfold pymilvusPatch at hx
    split_ifs at hx with hcond
    · exact replaceGo_chars _ _ x hx
    · exact Or.inl hx
  have hzchars : ∀ x, x ∈ z.data → x ∈ t.data ∨ x ∈ pymilvusRepl ∨ x = '[' ∨ x = ']' := by
    intro x hx
    rw [hzdata] at hx
    rcases dottedSubW_chars hx with hx | hx
    · rcases hychars x hx with h | h
      · exact Or.inl h
      · exact Or.inr (Or.inl h)
    · exact Or.inr (Or.inr hx)
  have hzgt : z.data.contains '>' = false := by
    cases hcon : z.data.contains '>'
    · rfl
    · exfalso
      rcases hzchars _ (List.elem_iff.mp hcon) with h | h | h | h
      · have h2 : t.data.contains '>' = true := List.elem_iff.mpr h
        rw [hgt] at h2
        cases h2
      · exact absurd h (by decide)
      · exact absurd h (by decide)
      · exact absurd h (by decide)
  have hzlt : z.data.contains '<' = false := by
    cases hcon : z.data.contains '<'
    · rfl
    · exfalso
      rcases hzchars _ (List.elem_iff.mp hcon) with h | h | h | h
      · have h2 : t.data.contains '<' = true := List.elem_iff.mpr h
        rw [hlt] at h2
        cases h2
      · exact absurd h (by decide)
      · exact absurd h (by decide)
      · exact absurd h (by decide)
  have hq2 : quoteRedirect z = z := by
    unfold quoteRedirect
    rw [hzgt, hzlt]
    simp
  have hguard : ¬(containsSub pymilvusPat z.data = true ∧
      containsSub milvusLitePat z.data = false) := by
    rintro ⟨hcp, hcm⟩
    by_cases hA : containsSub pymilvusPat t.data = true
    · by_cases hB : containsSub milvusLitePat t.data = true
      · have hyt : y = t := by
          rw [hy]
          have hcf : (containsSub pymilvusPat t.data &&
              !containsSub milvusLitePat t.data) = false := by
            rw [hB]
            simp
          simp [pymilvusPatch, hcf]
        have hml : containsSub milvusLitePat z.data = true := by
          rw [hzdata, hyt]
          have hsh : milvusLitePat = '[' :: "milvus-lite]".data := by decide
          rw [hsh] at hB ⊢
          exact dotted_preserve (by decide) hB
        rw [hml] at hcm
        cases hcm
      · have hBf : containsSub milvusLitePat t.data = false := by
          cases hcb : containsSub milvusLitePat t.data
          · rfl
          · exact absurd hcb hB
        have hyd : y.data = replaceAll pymilvusPat pymilvusRepl t.data := by
          rw [hy]
          exact congrArg String.data ((pymilvus_patch_condition t).2 hA hBf).1
        have hcm2 : containsSub milvusLitePat y.data = true := by
          rw [hyd]
          exact replace_gives_extra _ _ le_rfl hA
        have hml : containsSub milvusLitePat z.data = true := by
          rw [hzdata]
          have hsh : milvusLitePat = '[' :: "milvus-lite]".data := by decide
          rw [hsh] at hcm2 ⊢
          exact dotted_preserve (by decide) hcm2
        rw [hml] at hcm
        cases hcm
    · have hAf : containsSub pymilvusPat t.data = false := by
        cases hcb : containsSub pymilvusPat t.data
        · rfl
        · exact absurd hcb hA
      have hyt : y = t := by
        rw [hy]
        have hcf : (containsSub pymilvusPat t.data &&
            !containsSub milvusLitePat t.data) = false := by
          rw [hAf]
          rfl
        simp [pymilvusPatch, hcf]
      have hcreate : containsSub pymilvusPat t.data = true := by
        apply dotted_no_create (by decide)
        rw [← hyt]
        rw [← hzdata]
        exact hcp
      rw [hAf] at hcreate
      cases hcreate
  have hpatch2 : pymilvusPatch z = z := by
    have hcondf : (containsSub pymilvusPat z.data &&
        !containsSub milvusLitePat z.data) = false := by
      cases hc1 : containsSub pymilvusPat z.data
      · rfl
      · cases hc2 : containsSub milvusLitePat z.data
        · exact absurd ⟨hc1, hc2⟩ hguard
        · simp [hc2]
    simp [pymilvusPatch, hcondf]
  have hdot2 : dottedRewrite z = z := by
    rw [dottedRewrite_eq, hzdata, dottedSubW_idem, ← hzdata]
  rw [hnt]
  unfold normalizeToken
  rw [hq2, hpatch2, hdot2]

/-- C3 as stated is false on the code: applying the normalization twice to
`numpy>=1.20` double-quotes it, because the redirection-quoting step fires
again on the already-quoted token. -/
theorem normalize_not_idem_counterexample :
    normalizeToken (normalizeToken "numpy>=1.20") ≠ normalizeToken "numpy>=1.20" := by
  decide

theorem normalizeToken_idem_witness :
    ("llama_stack_provider_ragas.extra==0.5.1" : String).data.contains '>' = false ∧
    normalizeToken (normalizeToken "llama_stack_provider_ragas.extra==0.5.1") =
      normalizeToken "llama_stack_provider_ragas.extra==0.5.1" :=
  ⟨by decide,
   normalizeToken_idem "llama_stack_provider_ragas.extra==0.5.1" (by decide) (by decide)⟩
